import Mathlib

/-!
Verification development for the `rehype-mermaid-cli` plugin
(`src/index.ts`).

The plugin walks a HAST document tree, finds `code` elements tagged with
the class `language-mermaid`, renders each diagram once per configured
theme through the external `@mermaid-js/mermaid-cli` renderer with an
on-disk cache keyed by a content hash, and splices a wrapper `div`
(one themed `div` per rendered theme, the first visible, the rest
hidden) into the tree in place of the code block or its enclosing
`pre` element.

Modelling conventions (shallow embedding):
* HAST nodes are modelled by `HNode`.  Every node carries a numeric
  label `lbl` modelling JavaScript object identity: the rewrite step of
  the source locates its replacement target with `Array.prototype.indexOf`,
  which compares object references, so the model compares labels.
  Nodes synthesised by the plugin carry label `0`.
* External collaborators are parameters: the MD5 hex digest of
  `node:crypto` is a parameter `md5hex : String → String`; the
  mermaid-cli `run` entry point is a parameter acting on an explicit
  filesystem state; `hast-util-from-html` fragment parsing is a
  parameter `fragments : String → List HNode`.
* The filesystem used by the render cache is an explicit association
  list from path to file content, threaded through `renderMermaidDiagram`.
-/

namespace RehypeMermaid

/-- A HAST property value: either a scalar string or a list of string
tokens (as `className` is in HAST). -/
inductive PropVal where
  | str : String → PropVal
  | strs : List String → PropVal
deriving DecidableEq

/-- A HAST property bag, ordered as a JavaScript object's keys are. -/
abbrev Props := List (String × PropVal)

/-- First-match lookup of a property, mirroring JavaScript property
access on an object whose keys are unique. -/
def propGet (props : Props) (k : String) : Option PropVal :=
  (props.find? (fun kv => decide (kv.1 = k))).map (·.2)

/-- The JavaScript object spread `{ ...props, k: v }`: if `k` is already
a key its value is replaced in place, otherwise the pair is appended. -/
def jsSpreadSet (props : Props) (k : String) (v : PropVal) : Props :=
  if props.any (fun kv => decide (kv.1 = k)) then
    props.map (fun kv => if kv.1 = k then (k, v) else kv)
  else
    props ++ [(k, v)]

/-- A HAST node.  `lbl` models JavaScript object identity (reference
equality); nodes created by the plugin carry label `0`. -/
inductive HNode where
  | element (lbl : Nat) (tagName : String) (properties : Props) (children : List HNode)
  | root (lbl : Nat) (children : List HNode)
  | text (lbl : Nat) (value : String)

/-- The identity label of a node. -/
def lbl : HNode → Nat
  | .element l _ _ _ => l
  | .root l _ => l
  | .text l _ => l

/-- The ordered children of a node (`text` nodes have none). -/
def childrenOf : HNode → List HNode
  | .element _ _ _ ch => ch
  | .root _ ch => ch
  | .text _ _ => []

/-- Apply a function to a node's child list, leaving `text` nodes
unchanged. -/
def mapChildren (f : List HNode → List HNode) : HNode → HNode
  | .element l t p ch => .element l t p (f ch)
  | .root l ch => .root l (f ch)
  | .text l v => .text l v

/-- The mermaid themes accepted by the plugin
(`type Theme = "default" | "base" | "dark" | "forest" | "neutral" | "null"`). -/
inductive Theme where
  | default | base | dark | forest | neutral | null
deriving DecidableEq

/-- The string a `Theme` interpolates to in template literals. -/
def Theme.toStr : Theme → String
  | .default => "default"
  | .base => "base"
  | .dark => "dark"
  | .forest => "forest"
  | .neutral => "neutral"
  | .null => "null"

/-- Model of `getDiagramId` of the source: `mermaid-` followed by the first 8
hex characters of the MD5 digest of the diagram text.  The digest
itself (`node:crypto`, an external collaborator) is the parameter
`md5hex`. -/
def getDiagramId (md5hex : String → String) (diagram : String) : String :=
  "mermaid-" ++ (md5hex diagram).take 8

/-- Model of `getDiagramIdWithTheme` of the source: like `getDiagramId` but with
the theme name appended after a dash, so distinct themes give distinct
cache keys for the same source text. -/
def getDiagramIdWithTheme (md5hex : String → String) (diagram : String) (theme : Theme) : String :=
  "mermaid-" ++ (md5hex diagram).take 8 ++ "-" ++ theme.toStr

/-- The filesystem visible to the render cache: an association list
from absolute path to file content; the head is the most recent write. -/
abbrev FS := List (String × String)

/-- Read a file (`fs.readFile` / the `exists` check combined): the most
recent content written at `p`, if any. -/
def fsRead (fs : FS) (p : String) : Option String :=
  (fs.find? (fun kv => decide (kv.1 = p))).map (·.2)

/-- Write a file (`fs.writeFile`): later writes shadow earlier ones. -/
def fsWrite (fs : FS) (p c : String) : FS :=
  (p, c) :: fs

/-- The `puppeteerConfig` plugin option. -/
structure PuppeteerConfig where
  headless : Option Bool
  args : Option (List String)

/-- The options bundle handed to the external `run` of
`@mermaid-js/mermaid-cli` (flattened from `parseMMDOptions` and
`puppeteerConfig`). -/
structure RunOptions where
  backgroundColor : String
  theme : Theme
  svgId : String
  headless : Bool
  args : List String

/-- Assemble the options `renderMermaidDiagram` passes to `run`:
transparent background, the requested theme, the themed id embedded as
`svgId`, `headless` defaulting to `true` and `args` to `[]`. -/
def mkRunOptions (theme : Theme) (id : String) (pup : Option PuppeteerConfig) : RunOptions :=
  ⟨"transparent", theme, id, (pup.bind (·.headless)).getD true, (pup.bind (·.args)).getD []⟩

/-- The external renderer: given input path, output path, options and
the current filesystem it either fails (with a message and the
filesystem it leaves behind) or succeeds with the filesystem it leaves
behind.  `run` of `@mermaid-js/mermaid-cli` is an external collaborator,
so it is a parameter of the model. -/
abbrev Renderer := String → String → RunOptions → FS → Except (String × FS) FS

/-- Model of `path.join(tmpDir, name)` for the simple names used here. -/
def pathJoin (a b : String) : String := a ++ "/" ++ b

/-- The error message `fs.readFile` produces for a missing file. -/
def enoentMsg (p : String) : String :=
  "ENOENT: no such file or directory, open '" ++ p ++ "'"

/-- Model of `renderMermaidDiagram` of the source: compute the themed identity,
return the cached artifact verbatim when one exists at the derived
output path, otherwise stage the diagram source, invoke the external
renderer and read the produced artifact back (failing with the read
error when the renderer did not produce it).  Success returns the
artifact text together with the filesystem; failure carries the error
and the filesystem. -/
def renderMermaidDiagram (md5hex : String → String) (tmpDir : String) (run : Renderer)
    (diagram : String) (theme : Theme) (pup : Option PuppeteerConfig) (fs : FS) :
    Except (String × FS) (String × FS) :=
  let id := getDiagramIdWithTheme md5hex diagram theme
  let inputFile := pathJoin tmpDir (id ++ ".mmd")
  let finalOutput := pathJoin tmpDir (getDiagramIdWithTheme md5hex diagram theme ++ ".svg")
  match fsRead fs finalOutput with
  | some cached => .ok (cached, fs)
  | none =>
    let fs1 := fsWrite fs inputFile diagram
    match run inputFile finalOutput (mkRunOptions theme id pup) fs1 with
    | .error e => .error e
    | .ok fs2 =>
      match fsRead fs2 finalOutput with
      | some content => .ok (content, fs2)
      | none => .error (enoentMsg finalOutput, fs2)

/-- The string `s` contains `sub` as a contiguous substring. -/
def containsStr (s sub : String) : Prop :=
  ∃ a b, s.data = a ++ (sub.data ++ b)

/-! ### Tree traversal, discovery and rewriting -/

/-- The selection predicate of the traversal in `rehypeMermaidCLI`: the
node is an element with `tagName === "code"` whose `className` property
is an array containing the token `"language-mermaid"`. -/
def qualifies : HNode → Bool
  | .element _ tag props _ =>
    decide (tag = "code") &&
      (match propGet props "className" with
       | some (.strs cls) => cls.contains "language-mermaid"
       | _ => false)
  | _ => false

mutual
/-- All node labels of a tree in preorder. -/
def labels : HNode → List Nat
  | .element l _ _ ch => l :: labelsList ch
  | .root l ch => l :: labelsList ch
  | .text l _ => [l]

/-- The function `labels` over a child list. -/
def labelsList : List HNode → List Nat
  | [] => []
  | c :: cs => labels c ++ labelsList cs
end

mutual
/-- Whether any node of the tree satisfies `qualifies`. -/
def hasQual : HNode → Bool
  | .element l t p ch => qualifies (.element l t p ch) || hasQualList ch
  | .root _ ch => hasQualList ch
  | .text _ _ => false

/-- The function `hasQual` over a child list. -/
def hasQualList : List HNode → Bool
  | [] => false
  | c :: cs => hasQual c || hasQualList cs
end

mutual
/-- Model of `hast-util-to-text` with `whitespace: "pre"` (an external
collaborator): the concatenation of the text values of the subtree in
document order, taken literally. -/
def toTextPre : HNode → String
  | .element _ _ _ ch => toTextPreList ch
  | .root _ ch => toTextPreList ch
  | .text _ v => v

/-- The function `toTextPre` over a child list. -/
def toTextPreList : List HNode → String
  | [] => ""
  | c :: cs => toTextPre c ++ toTextPreList cs
end

mutual
/-- The side effect of the discovery pass: every qualifying node's
property bag is updated in place with its content-derived `id`
(`node.properties = { ...node.properties, id }`), before any rendering
happens.  Non-qualifying nodes keep their properties. -/
def assignIds (md5hex : String → String) : HNode → HNode
  | .element l tag props ch =>
    let props' :=
      if qualifies (.element l tag props ch) then
        jsSpreadSet props "id"
          (.str (getDiagramId md5hex (toTextPre (.element l tag props ch))))
      else props
    .element l tag props' (assignIdsList md5hex ch)
  | .root l ch => .root l (assignIdsList md5hex ch)
  | .text l v => .text l v

/-- The function `assignIds` over a child list. -/
def assignIdsList (md5hex : String → String) : List HNode → List HNode
  | [] => []
  | c :: cs => assignIds md5hex c :: assignIdsList md5hex cs
end

/-- A position in the tree: the list of child indices from the top. -/
abbrev Path := List Nat

mutual
/-- The discovery pass of `rehypeMermaidCLI` (via `visitParents` with
the `element` filter): the preorder list of positions of all qualifying
nodes, each position prefixed by `base`. -/
def discover : HNode → Path → List Path
  | .element l t p ch, base =>
    (if qualifies (.element l t p ch) then [base] else []) ++ discoverList ch base 0
  | .root _ ch, base => discoverList ch base 0
  | .text _ _, _ => []

/-- The function `discover` over a child list starting at child index `i`. -/
def discoverList : List HNode → Path → Nat → List Path
  | [], _, _ => []
  | c :: cs, base, i => discover c (base ++ [i]) ++ discoverList cs base (i + 1)
end

/-- The node at a position, if the position is valid. -/
def getAt? : HNode → Path → Option HNode
  | n, [] => some n
  | n, i :: p =>
    match (childrenOf n)[i]? with
    | some c => getAt? c p
    | none => none

/-- Rebuild the tree with `f` applied to the node at position `q`
(no change when the position is invalid). -/
def modifyAt : HNode → Path → (HNode → HNode) → HNode
  | n, [], f => f n
  | n, i :: p, f =>
    mapChildren (fun ch =>
      match ch[i]? with
      | some c => ch.set i (modifyAt c p f)
      | none => ch) n

/-- Model of `Array.prototype.indexOf` on a child list, comparing object
identity (labels): the first index holding a node with label `t`. -/
def findLbl (t : Nat) : List HNode → Option Nat
  | [] => none
  | c :: cs => if lbl c = t then some 0 else (findLbl t cs).map (· + 1)

/-- The splice of `applyThemeAST`: find the index of the target among
the children by object identity (`indexOf`, modelled by label equality)
and overwrite that index with the wrapper; when the target is not
found (`indexOf === -1`) the children are left untouched. -/
def spliceChildren (target wrapper : HNode) (ch : List HNode) : List HNode :=
  match findLbl (lbl target) ch with
  | some i => ch.set i wrapper
  | none => ch

/-- Whether a node is an element with `tagName === "pre"`. -/
def isPreElement : HNode → Bool
  | .element _ "pre" _ _ => true
  | _ => false

/-- The replacement-target resolution of `applyThemeAST`, phrased on
positions in the post-discovery tree `t1`.  For a discovered node at
position `p`: when its immediate parent (the last recorded ancestor) is
a `pre` element, the parent becomes the target, to be spliced into the
grandparent; otherwise the node itself is the target, spliced into the
parent.  `none` models the silent skips of the source: no ancestors at
all, or a `pre` target with no grandparent (`ancestors[-1]` is
`undefined`).  Returns the target node together with its position. -/
def resolveTarget (t1 : HNode) (p : Path) : Option (HNode × Path) :=
  match p with
  | [] => none
  | _ :: _ =>
    let pp := p.dropLast
    match getAt? t1 pp with
    | none => (getAt? t1 p).map (fun n => (n, p))
    | some parent =>
      if isPreElement parent then
        match pp with
        | [] => none
        | _ :: _ => some (parent, pp)
      else
        (getAt? t1 p).map (fun n => (n, p))

/-- Model of `parseSvg` of the source: parse the rendered markup into fragment
nodes (the external `hast-util-from-html` collaborator is the parameter
`fragments`); when the first fragment node is an `svg` element and a
nonempty `svgClassNames` option was supplied, append those class tokens
to the root's class list (spreading a scalar `className` string as
JavaScript array spread would). -/
def jsClassList (props : Props) : List String :=
  match propGet props "className" with
  | some (.strs cls) => cls
  | some (.str s) => if s = "" then [] else s.data.map (fun c => String.singleton c)
  | none => []

/-- See `jsClassList`; this is `parseSvg` itself. -/
def parseSvg (fragments : String → List HNode) (svgContent : String)
    (svgClassNames : Option (List String)) : List HNode :=
  match fragments svgContent with
  | [] => []
  | first :: rest =>
    match svgClassNames with
    | none => first :: rest
    | some cls =>
      match first with
      | .element l tag props ch =>
        if tag = "svg" ∧ cls.length > 0 then
          .element l tag
            (jsSpreadSet props "className" (.strs (jsClassList props ++ cls))) ch :: rest
        else first :: rest
      | _ => first :: rest

/-- One themed container div of `applyThemeAST`: carries the themed id,
the classes `mermaid` and `mermaid-<theme>`, and the style that shows
the container at index 0 and hides every other one. -/
def themeDiv (fragments : String → List HNode) (cls : Option (List String))
    (id : String) (index : Nat) (kv : Theme × String) : HNode :=
  .element 0 "div"
    [("id", .str ("mermaid-" ++ kv.1.toStr ++ "-" ++ id)),
     ("className", .strs ["mermaid", "mermaid-" ++ kv.1.toStr]),
     ("style", .str (if index = 0 then "display: block;" else "display: none;"))]
    (parseSvg fragments kv.2 cls)

/-- The theme container divs, one per entry of the theme-to-markup
mapping, in iteration order, numbered from `i`. -/
def themeDivs (fragments : String → List HNode) (cls : Option (List String))
    (id : String) : Nat → List (Theme × String) → List HNode
  | _, [] => []
  | i, kv :: rest => themeDiv fragments cls id i kv :: themeDivs fragments cls id (i + 1) rest

/-- The wrapper div of `applyThemeAST`: class `mermaid-wrapper`, the
diagram's id, and the theme containers as children. -/
def mermaidWrapper (fragments : String → List HNode) (svgByTheme : List (Theme × String))
    (id : String) (cls : Option (List String)) : HNode :=
  .element 0 "div" [("className", .strs ["mermaid-wrapper"]), ("id", .str id)]
    (themeDivs fragments cls id 0 svgByTheme)

/-- Model of `applyThemeAST` of the source, acting on the current tree `t`:
build the wrapper for the rendered themes, resolve the replacement
target against the post-discovery tree `t1`, and overwrite the target's
index among the splice parent's children (silently doing nothing when
no target resolves or the target is not found among the children). -/
def applyThemeAST (fragments : String → List HNode) (t1 t : HNode) (p : Path)
    (svgByTheme : List (Theme × String)) (id : String)
    (cls : Option (List String)) : HNode :=
  match resolveTarget t1 p with
  | none => t
  | some (target, tp) =>
    modifyAt t tp.dropLast
      (mapChildren (spliceChildren target (mermaidWrapper fragments svgByTheme id cls)))

/-- Model of `Object.fromEntries` over a list of theme/markup pairs: later
values for the same key overwrite, the key keeps its first position
(JavaScript object key order). -/
def jsUpsert (m : List (Theme × String)) (k : Theme) (v : String) : List (Theme × String) :=
  if m.any (fun kv => decide (kv.1 = k)) then
    m.map (fun kv => if kv.1 = k then (k, v) else kv)
  else m ++ [(k, v)]

/-- See `jsUpsert`. -/
def jsFromEntries (l : List (Theme × String)) : List (Theme × String) :=
  l.foldl (fun m kv => jsUpsert m kv.1 kv.2) []

/-- The plugin options (`renderThemes`, `svgClassNames`); the renderer
process options do not influence the tree and are omitted here. -/
structure PluginOptions where
  renderThemes : List Theme
  svgClassNames : Option (List String)

/-- One iteration of the per-diagram loop of `rehypeMermaidCLI`: read
the diagram text, derive the id, assemble the theme-to-markup mapping
(`Object.fromEntries` over the configured themes; the render layer is
abstracted by the pure `svgOf`, justified by the determinism of the
cache, proved separately on `renderMermaidDiagram`), and apply
`applyThemeAST`. -/
def transformStep (fragments : String → List HNode) (svgOf : String → Theme → String)
    (opts : PluginOptions) (md5hex : String → String) (tree t1 : HNode)
    (t : HNode) (p : Path) : HNode :=
  match getAt? tree p with
  | none => t
  | some n =>
    let diagram := toTextPre n
    let id := getDiagramId md5hex diagram
    let svgByTheme := jsFromEntries (opts.renderThemes.map (fun th => (th, svgOf diagram th)))
    applyThemeAST fragments t1 t p svgByTheme id opts.svgClassNames

/-- The whole transformation of `rehypeMermaidCLI`: discovery (which
assigns ids in place), then one rewrite per discovered diagram.  The
concurrent rewrites of the source are sequenced in discovery order;
each rewrite only touches its own splice point. -/
def rehypeMermaidCLI (fragments : String → List HNode) (svgOf : String → Theme → String)
    (opts : PluginOptions) (md5hex : String → String) (tree : HNode) : HNode :=
  (discover tree []).foldl
    (transformStep fragments svgOf opts md5hex tree (assignIds md5hex tree))
    (assignIds md5hex tree)

mutual
/-- Bool test used by counterexamples: some node of the tree has the
scalar property `("id", s)`. -/
def hasIdProp (s : String) : HNode → Bool
  | .element _ _ props ch =>
    props.any (fun kv => decide (kv.1 = "id" ∧ kv.2 = .str s)) || hasIdPropList s ch
  | .root _ ch => hasIdPropList s ch
  | .text _ _ => false

/-- The function `hasIdProp` over a child list. -/
def hasIdPropList (s : String) : List HNode → Bool
  | [] => false
  | c :: cs => hasIdProp s c || hasIdPropList s cs
end

/-- Whether `p` is an initial segment of `q` (the position `q` lies in the
subtree rooted at position `p`). -/
def isUnder : Path → Path → Bool
  | [], _ => true
  | _ :: _, [] => false
  | a :: p, b :: q => decide (a = b) && isUnder p q

/-- A named property of an element node (`none` on other nodes). -/
def nodeProp (k : String) : HNode → Option PropVal
  | .element _ _ pr _ => propGet pr k
  | _ => none

/-! ### Concrete sample inputs for witnesses and counterexamples -/

/-- A sample fragment parser producing one fresh `svg` element. -/
def sFragments : String → List HNode := fun _ => [.element 0 "svg" [] []]

/-- A sample digest function distinguishing the two diagram texts used
in the concrete trees. -/
def sMd5 : String → String := fun s => if s = "a" then "aaaaaaaa" else "bbbbbbbb"

/-- A sample render-result function. -/
def sSvgOf : String → Theme → String := fun _ _ => "S"

/-- A mermaid-tagged code block. -/
def sCodeM (l tl : Nat) (txt : String) : HNode :=
  .element l "code" [("className", .strs ["language-mermaid"])] [.text tl txt]

/-- A code block tagged with a different language. -/
def sCodeJS : HNode :=
  .element 4 "code" [("className", .strs ["language-js"])] [.text 6 "x"]

/-- One `pre`-wrapped diagram. -/
def sTreeSimple : HNode := .root 1 [.element 2 "pre" [] [sCodeM 3 5 "a"]]

/-- One `pre`-wrapped diagram next to an unrelated code block. -/
def sTreeFrame : HNode := .root 1 [.element 2 "pre" [] [sCodeM 3 5 "a"], sCodeJS]

/-- Two diagrams sharing one `pre` wrapper. -/
def sTreeSharedPre : HNode := .root 1 [.element 2 "pre" [] [sCodeM 3 5 "a", sCodeM 4 6 "b"]]

/-- A diagram and a non-diagram code block sharing one `pre` wrapper. -/
def sTreeMixedPre : HNode := .root 1 [.element 2 "pre" [] [sCodeM 3 5 "a", sCodeJS]]

/-! ## Theorems -/

/-- The six theme names are pairwise distinct strings. -/
theorem toStr_injective : ∀ a b : Theme, a.toStr = b.toStr → a = b := by
  intro a b
  cases a <;> cases b <;> simp [Theme.toStr]

/-- Claim C7: for every source text and fixed abstract digest function,
repeated calls of `getDiagramIdWithTheme` agree, and two distinct
themes give distinct themed identities for the same source. -/
theorem themedId_deterministic_and_theme_injective
    (md5hex : String → String) (s : String) (t1 t2 : Theme) :
    getDiagramIdWithTheme md5hex s t1 = getDiagramIdWithTheme md5hex s t1 ∧
    (t1 ≠ t2 → getDiagramIdWithTheme md5hex s t1 ≠ getDiagramIdWithTheme md5hex s t2) := by
  refine ⟨rfl, fun hne heq => hne ?_⟩
  apply toStr_injective
  apply String.ext
  have h := congrArg String.data heq
  simp only [getDiagramIdWithTheme, String.data_append] at h
  exact List.append_cancel_left h

/-- Witness for C7 at a concrete digest, source and theme pair. -/
theorem themedId_deterministic_and_theme_injective_w :
    getDiagramIdWithTheme (fun _ => "0123456789abcdef0123456789abcdef") "graph TD; A-->B;" Theme.default ≠
    getDiagramIdWithTheme (fun _ => "0123456789abcdef0123456789abcdef") "graph TD; A-->B;" Theme.dark :=
  (themedId_deterministic_and_theme_injective
    (fun _ => "0123456789abcdef0123456789abcdef") "graph TD; A-->B;" Theme.default Theme.dark).2
    (by decide)

/-- Claim C4: when an artifact exists at the output location derived
from the themed identity, `renderMermaidDiagram` returns it verbatim
with the filesystem untouched, independently of the renderer (so the
renderer is not invoked); consequently a second rendering of the same
source and theme in the same run returns the identical content from
the cache, again for any renderer. -/
theorem renderMermaidDiagram_cache_and_idempotent
    (md5hex : String → String) (tmpDir : String) (run run' : Renderer)
    (diagram : String) (theme : Theme) (pup : Option PuppeteerConfig) (fs : FS) :
    (∀ c, fsRead fs (pathJoin tmpDir (getDiagramIdWithTheme md5hex diagram theme ++ ".svg")) = some c →
        renderMermaidDiagram md5hex tmpDir run diagram theme pup fs = .ok (c, fs)) ∧
    (∀ c fs', renderMermaidDiagram md5hex tmpDir run diagram theme pup fs = .ok (c, fs') →
        renderMermaidDiagram md5hex tmpDir run' diagram theme pup fs' = .ok (c, fs')) := by
  constructor
  · intro c h
    simp only [renderMermaidDiagram, h]
  · intro c fs' h
    simp only [renderMermaidDiagram] at h ⊢
    cases hr : fsRead fs (pathJoin tmpDir (getDiagramIdWithTheme md5hex diagram theme ++ ".svg")) with
    | some cached =>
      simp only [hr, Except.ok.injEq, Prod.mk.injEq] at h
      obtain ⟨rfl, rfl⟩ := h
      simp only [hr]
    | none =>
      simp only [hr] at h
      cases hrun : run (pathJoin tmpDir (getDiagramIdWithTheme md5hex diagram theme ++ ".mmd"))
          (pathJoin tmpDir (getDiagramIdWithTheme md5hex diagram theme ++ ".svg"))
          (mkRunOptions theme (getDiagramIdWithTheme md5hex diagram theme) pup)
          (fsWrite fs (pathJoin tmpDir (getDiagramIdWithTheme md5hex diagram theme ++ ".mmd")) diagram) with
      | error e =>
        simp only [hrun] at h
        exact Except.noConfusion h
      | ok fs2 =>
        simp only [hrun] at h
        cases hr2 : fsRead fs2 (pathJoin tmpDir (getDiagramIdWithTheme md5hex diagram theme ++ ".svg")) with
        | none =>
          simp only [hr2] at h
          exact Except.noConfusion h
        | some content =>
          simp only [hr2, Except.ok.injEq, Prod.mk.injEq] at h
          obtain ⟨rfl, rfl⟩ := h
          simp only [hr2]

/-- Witness for C4: a concrete first render populates the cache and the
second call (with a different renderer) returns the identical content. -/
theorem renderMermaidDiagram_cache_and_idempotent_w :
    renderMermaidDiagram (fun _ => "hhhhhhhh") "/tmp" (fun _ _ _ fs => .ok fs) "g" Theme.default none
      [("/tmp/mermaid-hhhhhhhh-default.svg", "S"), ("/tmp/mermaid-hhhhhhhh-default.mmd", "g")] =
      .ok ("S", [("/tmp/mermaid-hhhhhhhh-default.svg", "S"), ("/tmp/mermaid-hhhhhhhh-default.mmd", "g")]) :=
  (renderMermaidDiagram_cache_and_idempotent (fun _ => "hhhhhhhh") "/tmp"
      (fun _ o _ fs => .ok (fsWrite fs o "S")) (fun _ _ _ fs => .ok fs) "g" Theme.default none []).2
    "S" [("/tmp/mermaid-hhhhhhhh-default.svg", "S"), ("/tmp/mermaid-hhhhhhhh-default.mmd", "g")] (by rfl)

/-- Counterexample for C5: a renderer that rejects with the message
`boom` makes `renderMermaidDiagram` fail with exactly that message,
which names neither the themed diagram identity nor the theme; no
artifact sits at the output location afterwards.  So the failure does
not, in general, name the diagram identity and theme. -/
theorem renderFailure_not_named_cex :
    renderMermaidDiagram (fun _ => "hhhhhhhh") "/tmp" (fun _ _ _ fs => .error ("boom", fs))
        "g" Theme.default none [] =
      .error ("boom", [("/tmp/mermaid-hhhhhhhh-default.mmd", "g")]) ∧
    ¬ containsStr "boom" (getDiagramIdWithTheme (fun _ => "hhhhhhhh") "g" Theme.default) ∧
    ¬ containsStr "boom" (Theme.toStr Theme.default) ∧
    fsRead [("/tmp/mermaid-hhhhhhhh-default.mmd", "g")] "/tmp/mermaid-hhhhhhhh-default.svg" = none := by
  refine ⟨rfl, ?_, ?_, rfl⟩
  · rintro ⟨a, b, h⟩
    have hl := congrArg List.length h
    have h24 : (getDiagramIdWithTheme (fun _ => "hhhhhhhh") "g" Theme.default).data.length = 24 := rfl
    simp only [List.length_append, h24] at hl
    simp at hl
    omega
  · rintro ⟨a, b, h⟩
    have hl := congrArg List.length h
    have h7 : (Theme.toStr Theme.default).data.length = 7 := rfl
    simp only [List.length_append, h7] at hl
    simp at hl
    omega

/-- Claim C5 (amended): on a cache miss, a renderer rejection is
propagated verbatim (with the filesystem the renderer left, nothing
further written by `renderMermaidDiagram` itself); when the renderer
succeeds without producing the expected artifact, the call fails with
the read error naming the themed output path — a message that does
contain the themed identity and the theme name — and the output
location holds no artifact. -/
theorem renderMermaidDiagram_failure
    (md5hex : String → String) (tmpDir : String) (run : Renderer)
    (diagram : String) (theme : Theme) (pup : Option PuppeteerConfig) (fs : FS)
    (hmiss : fsRead fs (pathJoin tmpDir (getDiagramIdWithTheme md5hex diagram theme ++ ".svg")) = none) :
    (∀ e fs2,
      run (pathJoin tmpDir (getDiagramIdWithTheme md5hex diagram theme ++ ".mmd"))
          (pathJoin tmpDir (getDiagramIdWithTheme md5hex diagram theme ++ ".svg"))
          (mkRunOptions theme (getDiagramIdWithTheme md5hex diagram theme) pup)
          (fsWrite fs (pathJoin tmpDir (getDiagramIdWithTheme md5hex diagram theme ++ ".mmd")) diagram) =
        .error (e, fs2) →
      renderMermaidDiagram md5hex tmpDir run diagram theme pup fs = .error (e, fs2)) ∧
    (∀ fs2,
      run (pathJoin tmpDir (getDiagramIdWithTheme md5hex diagram theme ++ ".mmd"))
          (pathJoin tmpDir (getDiagramIdWithTheme md5hex diagram theme ++ ".svg"))
          (mkRunOptions theme (getDiagramIdWithTheme md5hex diagram theme) pup)
          (fsWrite fs (pathJoin tmpDir (getDiagramIdWithTheme md5hex diagram theme ++ ".mmd")) diagram) =
        .ok fs2 →
      fsRead fs2 (pathJoin tmpDir (getDiagramIdWithTheme md5hex diagram theme ++ ".svg")) = none →
      renderMermaidDiagram md5hex tmpDir run diagram theme pup fs =
          .error (enoentMsg (pathJoin tmpDir (getDiagramIdWithTheme md5hex diagram theme ++ ".svg")), fs2) ∧
        containsStr (enoentMsg (pathJoin tmpDir (getDiagramIdWithTheme md5hex diagram theme ++ ".svg")))
          (getDiagramIdWithTheme md5hex diagram theme) ∧
        containsStr (enoentMsg (pathJoin tmpDir (getDiagramIdWithTheme md5hex diagram theme ++ ".svg")))
          theme.toStr) := by
  constructor
  · intro e fs2 hrun
    simp only [renderMermaidDiagram, hmiss, hrun]
  · intro fs2 hrun hr2
    refine ⟨?_, ?_, ?_⟩
    · simp only [renderMermaidDiagram, hmiss, hrun, hr2]
    · refine ⟨"ENOENT: no such file or directory, open '".data ++ (tmpDir.data ++ "/".data),
        (".svg".data ++ "'".data), ?_⟩
      simp only [enoentMsg, pathJoin, String.data_append, List.append_assoc]
    · refine ⟨"ENOENT: no such file or directory, open '".data ++ (tmpDir.data ++ "/".data ++
        ("mermaid-".data ++ ((md5hex diagram).take 8).data ++ "-".data)),
        (".svg".data ++ "'".data), ?_⟩
      simp only [enoentMsg, pathJoin, getDiagramIdWithTheme, String.data_append, List.append_assoc]

/-- Witness for C5 (amended) at a concrete renderer that succeeds
without producing the artifact. -/
theorem renderMermaidDiagram_failure_w :
    renderMermaidDiagram (fun _ => "hhhhhhhh") "/tmp" (fun _ _ _ fs => .ok fs) "g" Theme.default none [] =
      .error (enoentMsg "/tmp/mermaid-hhhhhhhh-default.svg", [("/tmp/mermaid-hhhhhhhh-default.mmd", "g")]) ∧
    containsStr (enoentMsg "/tmp/mermaid-hhhhhhhh-default.svg") "mermaid-hhhhhhhh-default" ∧
    containsStr (enoentMsg "/tmp/mermaid-hhhhhhhh-default.svg") "default" :=
  (renderMermaidDiagram_failure (fun _ => "hhhhhhhh") "/tmp" (fun _ _ _ fs => .ok fs)
      "g" Theme.default none [] (by rfl)).2
    [("/tmp/mermaid-hhhhhhhh-default.mmd", "g")] (by rfl) (by rfl)

/-- The search `findLbl` returns an in-range index whose entry carries the label. -/
theorem findLbl_spec : ∀ (ch : List HNode) (t i : Nat), findLbl t ch = some i →
    i < ch.length ∧ ∃ c, ch[i]? = some c ∧ lbl c = t := by
  intro ch
  induction ch with
  | nil => intro t i h; exact absurd h (by simp [findLbl])
  | cons c cs ih =>
    intro t i h
    by_cases hc : lbl c = t
    · simp only [findLbl, if_pos hc] at h
      obtain rfl : (0 : Nat) = i := Option.some.inj h
      exact ⟨Nat.succ_pos _, c, by simp, hc⟩
    · simp only [findLbl, if_neg hc, Option.map_eq_some'] at h
      obtain ⟨j, hj, rfl⟩ := h
      obtain ⟨hlt, d, hd, hld⟩ := ih t j hj
      exact ⟨Nat.succ_lt_succ hlt, d, by simpa using hd, hld⟩

/-- Setting an index to the value it already holds changes nothing. -/
theorem set_self_of_getElem : ∀ (l : List HNode) (i : Nat) (a : HNode),
    l[i]? = some a → l.set i a = l := by
  intro l
  induction l with
  | nil => intro i a h; simp at h
  | cons x xs ih =>
    intro i a h
    cases i with
    | zero => simp at h; simp [h]
    | succ j => simp at h; simp [ih j a h]

/-- Claim C2: when the splice locates its target at index `i` among the
splice parent's children, the wrapper ends up exactly at `i` (where a
node with the target's identity stood), the list keeps its length, and
every other child is the identical node. -/
theorem spliceChildren_frame (target wrapper : HNode) (ch : List HNode) (i : Nat)
    (h : findLbl (lbl target) ch = some i) :
    (spliceChildren target wrapper ch).length = ch.length ∧
    (spliceChildren target wrapper ch)[i]? = some wrapper ∧
    (∃ c, ch[i]? = some c ∧ lbl c = lbl target) ∧
    (∀ j, j ≠ i → (spliceChildren target wrapper ch)[j]? = ch[j]?) := by
  obtain ⟨hlt, c, hc, hlc⟩ := findLbl_spec ch (lbl target) i h
  refine ⟨?_, ?_, ⟨c, hc, hlc⟩, ?_⟩
  · simp only [spliceChildren, h, List.length_set]
  · simp only [spliceChildren, h]
    simp [List.getElem?_set_self, hlt]
  · intro j hj
    simp only [spliceChildren, h]
    exact List.getElem?_set_ne (fun e => hj e.symm)

/-- Witness for C2 on a concrete child list. -/
theorem spliceChildren_frame_w :
    (spliceChildren (.element 7 "code" [] []) (.element 0 "div" [] [])
        [.text 5 "a", .element 7 "code" [] [], .text 6 "b"]).length = 3 ∧
    (spliceChildren (.element 7 "code" [] []) (.element 0 "div" [] [])
        [.text 5 "a", .element 7 "code" [] [], .text 6 "b"])[1]? = some (.element 0 "div" [] []) ∧
    (∃ c, ([.text 5 "a", .element 7 "code" [] [], .text 6 "b"] : List HNode)[1]? = some c ∧
      lbl c = lbl (.element 7 "code" [] [])) ∧
    (∀ j, j ≠ 1 →
      (spliceChildren (.element 7 "code" [] []) (.element 0 "div" [] [])
          [.text 5 "a", .element 7 "code" [] [], .text 6 "b"])[j]? =
        ([.text 5 "a", .element 7 "code" [] [], .text 6 "b"] : List HNode)[j]?) :=
  spliceChildren_frame (.element 7 "code" [] []) (.element 0 "div" [] [])
    [.text 5 "a", .element 7 "code" [] [], .text 6 "b"] 1 (by rfl)

/-- Applying `mapChildren` with a function that fixes the node's children fixes
the node. -/
theorem mapChildren_congr_self (n : HNode) (f : List HNode → List HNode)
    (h : f (childrenOf n) = childrenOf n) : mapChildren f n = n := by
  cases n <;> simp only [mapChildren, childrenOf] at h ⊢ <;> rw [h]

/-- Applying `modifyAt` with a function that fixes the node at the position
fixes the tree (also when the position is invalid). -/
theorem modifyAt_self (q : Path) : ∀ (t : HNode) (f : HNode → HNode),
    (∀ m, getAt? t q = some m → f m = m) → modifyAt t q f = t := by
  induction q with
  | nil => intro t f h; exact h t rfl
  | cons i p ih =>
    intro t f h
    show mapChildren _ t = t
    apply mapChildren_congr_self
    cases hc : (childrenOf t)[i]? with
    | none => simp only [hc]
    | some c =>
      simp only [hc]
      have hrec : modifyAt c p f = c := by
        apply ih
        intro m hm
        apply h
        simp only [getAt?, hc, hm]
      rw [hrec]
      exact set_self_of_getElem _ i c hc

/-- Claim C6: when the resolved replacement target is not found among
the splice parent's children (by object identity), the rewrite does
nothing: `applyThemeAST` is total (no error) and returns the tree
unchanged. -/
theorem spliceMiss_skips (fragments : String → List HNode) (t1 t : HNode) (p : Path)
    (svgByTheme : List (Theme × String)) (id : String) (cls : Option (List String))
    (target : HNode) (tp : Path)
    (hrt : resolveTarget t1 p = some (target, tp))
    (hmiss : ∀ m, getAt? t tp.dropLast = some m → findLbl (lbl target) (childrenOf m) = none) :
    applyThemeAST fragments t1 t p svgByTheme id cls = t := by
  simp only [applyThemeAST, hrt]
  apply modifyAt_self
  intro m hm
  apply mapChildren_congr_self
  simp only [spliceChildren, hmiss m hm]

/-- Witness for C6: the `pre` parent was already replaced by another
node, so the target label is absent and the tree is untouched. -/
theorem spliceMiss_skips_w :
    applyThemeAST (fun _ => []) (.root 1 [.element 2 "pre" [] [.element 3 "code" [] []]])
      (.root 1 [.element 9 "div" [] []]) [0, 0] [] "x" none =
      .root 1 [.element 9 "div" [] []] :=
  spliceMiss_skips (fun _ => []) (.root 1 [.element 2 "pre" [] [.element 3 "code" [] []]])
    (.root 1 [.element 9 "div" [] []]) [0, 0] [] "x" none
    (.element 2 "pre" [] [.element 3 "code" [] []]) [0] (by rfl)
    (by intro m hm; cases hm; rfl)

/-- Claim C3: target resolution.  When the discovered node's immediate
parent is a `pre` element, the parent is the target and the splice
lands in the grandparent's children; otherwise the node itself is the
target and the splice lands in the immediate parent's children; and
`applyThemeAST` overwrites precisely the resolved target's index in the
resolved splice parent's children with the wrapper. -/
theorem resolveTarget_rule (fragments : String → List HNode) (t1 t : HNode) (p : Path)
    (svgByTheme : List (Theme × String)) (id : String) (cls : Option (List String))
    (hp : p ≠ []) :
    (∀ parent, getAt? t1 p.dropLast = some parent → isPreElement parent = true →
        p.dropLast ≠ [] → resolveTarget t1 p = some (parent, p.dropLast)) ∧
    (∀ parent, getAt? t1 p.dropLast = some parent → isPreElement parent = false →
        ∀ n, getAt? t1 p = some n → resolveTarget t1 p = some (n, p)) ∧
    (∀ target tp, resolveTarget t1 p = some (target, tp) →
        applyThemeAST fragments t1 t p svgByTheme id cls =
          modifyAt t tp.dropLast
            (mapChildren (spliceChildren target (mermaidWrapper fragments svgByTheme id cls)))) := by
  refine ⟨?_, ?_, ?_⟩
  · intro parent hpar hpre hppne
    cases p with
    | nil => exact absurd rfl hp
    | cons a q =>
      simp only [resolveTarget, hpar, if_pos hpre]
      cases hpp : (a :: q).dropLast with
      | nil => exact absurd hpp hppne
      | cons b r => rfl
  · intro parent hpar hpre n hn
    cases p with
    | nil => exact absurd rfl hp
    | cons a q =>
      simp only [resolveTarget, hpar, hn]
      rw [if_neg (by simp [hpre])]
      rfl
  · intro target tp hrt
    simp only [applyThemeAST, hrt]

/-- Witness for C3 on a concrete tree: `pre` parent case, non-`pre`
parent case, and the induced splice. -/
theorem resolveTarget_rule_w :
    (resolveTarget (.root 1 [.element 2 "pre" [] [.element 3 "code" [] []]]) [0, 0] =
      some (.element 2 "pre" [] [.element 3 "code" [] []], [0])) ∧
    (resolveTarget (.root 1 [.element 4 "div" [] [.element 5 "code" [] []]]) [0, 0] =
      some (.element 5 "code" [] [], [0, 0])) := by
  constructor
  · exact (resolveTarget_rule (fun _ => []) (.root 1 [.element 2 "pre" [] [.element 3 "code" [] []]])
        (.root 1 []) [0, 0] [] "x" none (by decide)).1
      (.element 2 "pre" [] [.element 3 "code" [] []]) (by rfl) (by rfl) (by decide)
  · exact (resolveTarget_rule (fun _ => []) (.root 1 [.element 4 "div" [] [.element 5 "code" [] []]])
        (.root 1 []) [0, 0] [] "x" none (by decide)).2.1
      (.element 4 "div" [] [.element 5 "code" [] []]) (by rfl) (by rfl)
      (.element 5 "code" [] []) (by rfl)

/-- The model of `Object.fromEntries` appends an entry whose key is fresh. -/
theorem jsUpsert_append (m : List (Theme × String)) (k : Theme) (v : String)
    (h : ∀ kv ∈ m, kv.1 ≠ k) : jsUpsert m k v = m ++ [(k, v)] := by
  simp only [jsUpsert]
  rw [if_neg]
  intro hx
  obtain ⟨kv, hkv, hdec⟩ := List.any_eq_true.mp hx
  exact h kv hkv (of_decide_eq_true hdec)

/-- The model of `Object.fromEntries` over duplicate-free keys keeps the entry list
as supplied. -/
theorem jsFromEntries_aux : ∀ (l acc : List (Theme × String)),
    (l.map Prod.fst).Nodup → (∀ kv ∈ acc, ∀ kv2 ∈ l, kv.1 ≠ kv2.1) →
    l.foldl (fun m kv => jsUpsert m kv.1 kv.2) acc = acc ++ l := by
  intro l
  induction l with
  | nil => intro acc _ _; simp
  | cons kv l ih =>
    intro acc hnd hdisj
    simp only [List.foldl_cons]
    have hnd' : (kv.1 :: l.map Prod.fst).Nodup := by
      simpa only [List.map_cons] using hnd
    rw [jsUpsert_append acc kv.1 kv.2 (fun kv' h' => hdisj kv' h' kv (by simp))]
    rw [ih (acc ++ [(kv.1, kv.2)]) hnd'.of_cons ?_]
    · simp
    · intro kv' h' kv2 h2
      rcases List.mem_append.mp h' with hin | hin
      · exact hdisj kv' hin kv2 (List.mem_cons_of_mem kv h2)
      · have : kv' = (kv.1, kv.2) := by simpa using hin
        subst this
        have hnotin : kv.1 ∉ l.map Prod.fst := (List.nodup_cons.mp hnd').1
        intro he
        exact hnotin (he ▸ List.mem_map_of_mem Prod.fst h2)

/-- See `jsFromEntries_aux`. -/
theorem jsFromEntries_nodup (l : List (Theme × String)) (h : (l.map Prod.fst).Nodup) :
    jsFromEntries l = l := by
  simpa [jsFromEntries] using jsFromEntries_aux l [] h (by simp)

/-- The list `themeDivs` has one entry per theme/markup pair. -/
theorem themeDivs_length (f : String → List HNode) (cls : Option (List String)) (id : String) :
    ∀ (l : List (Theme × String)) (s : Nat), (themeDivs f cls id s l).length = l.length := by
  intro l
  induction l with
  | nil => intro s; rfl
  | cons kv rest ih => intro s; simp [themeDivs, ih]

/-- The entry of `themeDivs` at index `i` is the themed div built from
the pair at `i`, numbered `s + i`. -/
theorem themeDivs_getElem (f : String → List HNode) (cls : Option (List String)) (id : String) :
    ∀ (l : List (Theme × String)) (s i : Nat),
      (themeDivs f cls id s l)[i]? = l[i]?.map (fun kv => themeDiv f cls id (s + i) kv) := by
  intro l
  induction l with
  | nil => intro s i; simp [themeDivs]
  | cons kv rest ih =>
    intro s i
    cases i with
    | zero => simp [themeDivs]
    | succ j =>
      have hsj : s + (j + 1) = (s + 1) + j := by omega
      simp only [themeDivs, List.getElem?_cons_succ, ih (s + 1) j, hsj]

/-- The style property of a themed container div. -/
theorem themeDiv_style (f : String → List HNode) (cls : Option (List String)) (id : String)
    (i : Nat) (kv : Theme × String) :
    nodeProp "style" (themeDiv f cls id i kv) =
      some (.str (if i = 0 then "display: block;" else "display: none;")) := rfl

/-- Claim C1 (amended to duplicate-free theme lists): for a nonempty,
duplicate-free configured theme list, the diagram-group wrapper has one
theme-variant container per theme, in the supplied order; the container
at index `i` carries the classes of the theme at index `i` and is
styled visible exactly when `i = 0`; the first container exists and is
the visible one. -/
theorem themeContainers_order_and_visibility (fragments : String → List HNode)
    (themes : List Theme) (svgOf : Theme → String) (id : String) (cls : Option (List String))
    (hne : themes ≠ []) (hnd : themes.Nodup) :
    (childrenOf (mermaidWrapper fragments
        (jsFromEntries (themes.map (fun th => (th, svgOf th)))) id cls)).length = themes.length ∧
    (∀ i th, themes[i]? = some th →
      ∃ d, (childrenOf (mermaidWrapper fragments
          (jsFromEntries (themes.map (fun th => (th, svgOf th)))) id cls))[i]? = some d ∧
        nodeProp "className" d = some (.strs ["mermaid", "mermaid-" ++ th.toStr]) ∧
        nodeProp "style" d = some (.str (if i = 0 then "display: block;" else "display: none;"))) ∧
    (∀ i d, (childrenOf (mermaidWrapper fragments
          (jsFromEntries (themes.map (fun th => (th, svgOf th)))) id cls))[i]? = some d →
      (nodeProp "style" d = some (.str "display: block;") ↔ i = 0)) ∧
    (∃ d, (childrenOf (mermaidWrapper fragments
        (jsFromEntries (themes.map (fun th => (th, svgOf th)))) id cls))[0]? = some d ∧
      nodeProp "style" d = some (.str "display: block;")) := by
  have hmap : (themes.map (fun th => (th, svgOf th))).map Prod.fst = themes := by
    rw [List.map_map]
    exact List.map_id'' (fun _ => rfl) themes
  have hkeys : ((themes.map (fun th => (th, svgOf th))).map Prod.fst).Nodup := by
    rw [hmap]; exact hnd
  have hfe : jsFromEntries (themes.map (fun th => (th, svgOf th))) =
      themes.map (fun th => (th, svgOf th)) := jsFromEntries_nodup _ hkeys
  have hch : childrenOf (mermaidWrapper fragments
      (jsFromEntries (themes.map (fun th => (th, svgOf th)))) id cls) =
      themeDivs fragments cls id 0 (themes.map (fun th => (th, svgOf th))) := by
    rw [hfe]; rfl
  have hidx : ∀ i th, themes[i]? = some th →
      (childrenOf (mermaidWrapper fragments
          (jsFromEntries (themes.map (fun th => (th, svgOf th)))) id cls))[i]? =
        some (themeDiv fragments cls id i (th, svgOf th)) := by
    intro i th hi
    rw [hch, themeDivs_getElem]
    simp [hi]
  refine ⟨?_, ?_, ?_, ?_⟩
  · rw [hch, themeDivs_length]
    simp
  · intro i th hi
    exact ⟨themeDiv fragments cls id i (th, svgOf th), hidx i th hi, rfl, rfl⟩
  · intro i d hd
    rw [hch, themeDivs_getElem] at hd
    rw [Option.map_eq_some'] at hd
    obtain ⟨kv, _, rfl⟩ := hd
    have hs := themeDiv_style fragments cls id (0 + i) kv
    constructor
    · intro hstyle
      rw [hs] at hstyle
      by_contra hi
      rw [if_neg (by omega)] at hstyle
      simp at hstyle
    · rintro rfl
      rw [hs]
      simp
  · cases themes with
    | nil => exact absurd rfl hne
    | cons th0 rest =>
      exact ⟨themeDiv fragments cls id 0 (th0, svgOf th0), hidx 0 th0 (by simp), rfl⟩

/-- Counterexample for C1 as frozen: a configured theme list with a
repeated entry yields fewer theme-variant containers than entries
(`Object.fromEntries` collapses duplicate keys), so the wrapper does
not contain one container per list entry. -/
theorem themeContainers_cex :
    (childrenOf (mermaidWrapper (fun _ => [])
        (jsFromEntries ([Theme.default, Theme.default].map (fun th => (th, "S")))) "x" none)).length ≠
      [Theme.default, Theme.default].length := by
  decide

/-- Witness for C1 (amended) at a concrete two-theme list. -/
theorem themeContainers_order_and_visibility_w :
    (childrenOf (mermaidWrapper (fun _ => [])
        (jsFromEntries ([Theme.default, Theme.dark].map (fun th => (th, (fun _ => "S") th)))) "x" none)).length =
      [Theme.default, Theme.dark].length :=
  (themeContainers_order_and_visibility (fun _ => []) [Theme.default, Theme.dark]
    (fun _ => "S") "x" none (by decide) (by decide)).1

/-- Claim C9: when the parsed fragment root is an `svg` element, an
absent or empty `svgClassNames` option leaves the parsed fragment
untouched, and a nonempty one appends exactly the supplied tokens, in
order, to the root's class list. -/
theorem parseSvg_classNames (fragments : String → List HNode) (svgContent : String)
    (l : Nat) (props : Props) (ch rest : List HNode)
    (h : fragments svgContent = .element l "svg" props ch :: rest) :
    parseSvg fragments svgContent none = fragments svgContent ∧
    parseSvg fragments svgContent (some []) = fragments svgContent ∧
    (∀ cls, cls ≠ [] →
      parseSvg fragments svgContent (some cls) =
        .element l "svg" (jsSpreadSet props "className" (.strs (jsClassList props ++ cls))) ch
          :: rest) := by
  refine ⟨?_, ?_, ?_⟩
  · simp only [parseSvg, h]
  · simp only [parseSvg, h]
    norm_num
  · intro cls hcls
    simp only [parseSvg, h]
    rw [if_pos ⟨by simp, List.length_pos.mpr hcls⟩]

/-- Witness for C9 at a concrete parsed `svg` root. -/
theorem parseSvg_classNames_w :
    parseSvg (fun _ => [.element 0 "svg" [("className", .strs ["old"])] []]) "S" none =
      [.element 0 "svg" [("className", .strs ["old"])] []] ∧
    parseSvg (fun _ => [.element 0 "svg" [("className", .strs ["old"])] []]) "S"
        (some ["mx-auto", "x2"]) =
      [.element 0 "svg"
        (jsSpreadSet [("className", .strs ["old"])] "className"
          (.strs (jsClassList [("className", .strs ["old"])] ++ ["mx-auto", "x2"]))) []] := by
  constructor
  · exact (parseSvg_classNames (fun _ => [.element 0 "svg" [("className", .strs ["old"])] []]) "S"
      0 [("className", .strs ["old"])] [] [] (by rfl)).1
  · exact (parseSvg_classNames (fun _ => [.element 0 "svg" [("className", .strs ["old"])] []]) "S"
      0 [("className", .strs ["old"])] [] [] (by rfl)).2.2 ["mx-auto", "x2"] (by decide)

/-! ### Position machinery for the whole-tree frame theorem -/

/-- The test `isUnder p q` holds exactly when `q` extends `p`. -/
theorem isUnder_iff : ∀ p q : Path, isUnder p q = true ↔ ∃ r, q = p ++ r := by
  intro p
  induction p with
  | nil => intro q; simp [isUnder]
  | cons a p ih =>
    intro q
    cases q with
    | nil =>
      simp only [isUnder, Bool.false_eq_true, false_iff]
      rintro ⟨r, hr⟩
      exact List.cons_ne_nil a (p ++ r) hr.symm
    | cons b q =>
      simp only [isUnder, Bool.and_eq_true, decide_eq_true_eq, ih q]
      constructor
      · rintro ⟨rfl, r, rfl⟩
        exact ⟨r, rfl⟩
      · rintro ⟨r, hr⟩
        obtain ⟨rfl, rfl⟩ : b = a ∧ q = p ++ r := by
          simpa using hr
        exact ⟨rfl, r, rfl⟩

/-- A path extends itself. -/
theorem isUnder_refl (p : Path) : isUnder p p = true :=
  (isUnder_iff p p).mpr ⟨[], by simp⟩

/-- Reading `getAt?` decomposes along path concatenation. -/
theorem getAt?_append : ∀ (p q : Path) (t : HNode),
    getAt? t (p ++ q) = (getAt? t p).bind (fun m => getAt? m q) := by
  intro p
  induction p with
  | nil => intro q t; rfl
  | cons i p ih =>
    intro q t
    show getAt? t (i :: (p ++ q)) = _
    simp only [getAt?]
    cases hc : (childrenOf t)[i]? with
    | none => rfl
    | some c => exact ih q c

/-- The children of `mapChildren f n` (for nodes that have children). -/
theorem childrenOf_mapChildren_congr (f g : List HNode → List HNode) (n : HNode)
    (h : f (childrenOf n) = g (childrenOf n)) : mapChildren f n = mapChildren g n := by
  cases n <;> simp only [mapChildren, childrenOf] at h ⊢ <;> rw [h]

/-- Applying `mapChildren` keeps the node's label. -/
theorem lbl_mapChildren (f : List HNode → List HNode) (n : HNode) :
    lbl (mapChildren f n) = lbl n := by
  cases n <;> rfl

/-- Applying `modifyAt` at an invalid position is the identity. -/
theorem modifyAt_of_getAt?_none : ∀ (q : Path) (t : HNode) (f : HNode → HNode),
    getAt? t q = none → modifyAt t q f = t := by
  intro q
  induction q with
  | nil => intro t f h; exact absurd h (by simp [getAt?])
  | cons i p ih =>
    intro t f h
    show mapChildren _ t = t
    apply mapChildren_congr_self
    cases hc : (childrenOf t)[i]? with
    | none => simp only [hc]
    | some c =>
      simp only [hc]
      have : getAt? c p = none := by
        simpa only [getAt?, hc] using h
      rw [ih c f this]
      exact set_self_of_getElem _ i c hc

/-- Applying `modifyAt` only depends on the function's value at the node at the
position. -/
theorem modifyAt_congr : ∀ (q : Path) (t : HNode) (f g : HNode → HNode),
    (∀ m, getAt? t q = some m → f m = g m) → modifyAt t q f = modifyAt t q g := by
  intro q
  induction q with
  | nil => intro t f g h; exact h t rfl
  | cons i p ih =>
    intro t f g h
    show mapChildren _ t = mapChildren _ t
    apply childrenOf_mapChildren_congr
    cases hc : (childrenOf t)[i]? with
    | none => simp only [hc]
    | some c =>
      simp only [hc]
      rw [ih c f g (fun m hm => h m (by simp only [getAt?, hc, hm]))]

/-- Splitting `modifyAt` at the last step of the path. -/
theorem modifyAt_snoc : ∀ (q : Path) (j : Nat) (t : HNode) (f : HNode → HNode),
    modifyAt t (q ++ [j]) f =
      modifyAt t q (fun n => mapChildren (fun ch =>
        match ch[j]? with
        | some c => ch.set j (f c)
        | none => ch) n) := by
  intro q
  induction q with
  | nil => intro j t f; rfl
  | cons i p ih =>
    intro j t f
    show mapChildren _ t = mapChildren _ t
    apply childrenOf_mapChildren_congr
    cases hc : (childrenOf t)[i]? with
    | none => simp only [hc]
    | some c =>
      simp only [hc]
      exact congrArg (fun x => (childrenOf t).set i x) (ih j c f)

/-- Positions incomparable with the modified position are untouched by
`modifyAt`. -/
theorem getAt?_modifyAt_unrelated : ∀ (pth q : Path) (t : HNode) (f : HNode → HNode),
    isUnder pth q = false → isUnder q pth = false →
    getAt? (modifyAt t pth f) q = getAt? t q := by
  intro pth
  induction pth with
  | nil => intro q t f h1 _; simp [isUnder] at h1
  | cons i p ih =>
    intro q t f h1 h2
    cases q with
    | nil => simp [isUnder] at h2
    | cons j q' =>
      show getAt? (mapChildren _ t) (j :: q') = _
      simp only [getAt?]
      by_cases hij : i = j
      · subst hij
        have h1' : isUnder p q' = false := by
          simpa [isUnder] using h1
        have h2' : isUnder q' p = false := by
          simpa [isUnder] using h2
        cases t with
        | text l v => rfl
        | element l tg pr ch =>
          simp only [mapChildren, childrenOf]
          cases hc : ch[i]? with
          | none => simp only [hc]
          | some c =>
            simp only [hc]
            have hset : (ch.set i (modifyAt c p f))[i]? = some (modifyAt c p f) := by
              have : i < ch.length := (List.getElem?_eq_some_iff.mp hc).1
              simp [List.getElem?_set_self, this]
            rw [hset]
            exact ih q' c f h1' h2'
        | root l ch =>
          simp only [mapChildren, childrenOf]
          cases hc : ch[i]? with
          | none => simp only [hc]
          | some c =>
            simp only [hc]
            have hset : (ch.set i (modifyAt c p f))[i]? = some (modifyAt c p f) := by
              have : i < ch.length := (List.getElem?_eq_some_iff.mp hc).1
              simp [List.getElem?_set_self, this]
            rw [hset]
            exact ih q' c f h1' h2'
      · cases t with
        | text l v => rfl
        | element l tg pr ch =>
          simp only [mapChildren, childrenOf]
          cases hc : ch[i]? with
          | none => simp only [hc]
          | some c => simp only [hc, List.getElem?_set_ne hij]
        | root l ch =>
          simp only [mapChildren, childrenOf]
          cases hc : ch[i]? with
          | none => simp only [hc]
          | some c => simp only [hc, List.getElem?_set_ne hij]

/-- Applying `modifyAt` keeps the label of every node at or above (but not
strictly below) the modified position. -/
theorem lblAt_modifyAt : ∀ (pth q : Path) (t : HNode) (f : HNode → HNode),
    isUnder pth q = false →
    (getAt? (modifyAt t pth f) q).map lbl = (getAt? t q).map lbl := by
  intro pth
  induction pth with
  | nil => intro q t f h; simp [isUnder] at h
  | cons i p ih =>
    intro q t f h
    cases q with
    | nil =>
      show some (lbl (mapChildren _ t)) = some (lbl t)
      rw [lbl_mapChildren]
    | cons j q' =>
      by_cases hij : i = j
      · subst hij
        have h' : isUnder p q' = false := by
          simpa [isUnder] using h
        show (getAt? (mapChildren _ t) (i :: q')).map lbl = _
        simp only [getAt?]
        cases t with
        | text l v => rfl
        | element l tg pr ch =>
          simp only [mapChildren, childrenOf]
          cases hc : ch[i]? with
          | none => simp only [hc]
          | some c =>
            simp only [hc]
            have hset : (ch.set i (modifyAt c p f))[i]? = some (modifyAt c p f) := by
              have : i < ch.length := (List.getElem?_eq_some_iff.mp hc).1
              simp [List.getElem?_set_self, this]
            rw [hset]
            exact ih q' c f h'
        | root l ch =>
          simp only [mapChildren, childrenOf]
          cases hc : ch[i]? with
          | none => simp only [hc]
          | some c =>
            simp only [hc]
            have hset : (ch.set i (modifyAt c p f))[i]? = some (modifyAt c p f) := by
              have : i < ch.length := (List.getElem?_eq_some_iff.mp hc).1
              simp [List.getElem?_set_self, this]
            rw [hset]
            exact ih q' c f h'
      · show (getAt? (mapChildren _ t) (j :: q')).map lbl = _
        simp only [getAt?]
        cases t with
        | text l v => rfl
        | element l tg pr ch =>
          simp only [mapChildren, childrenOf]
          cases hc : ch[i]? with
          | none => simp only [hc]
          | some c => simp only [hc, List.getElem?_set_ne hij]
        | root l ch =>
          simp only [mapChildren, childrenOf]
          cases hc : ch[i]? with
          | none => simp only [hc]
          | some c => simp only [hc, List.getElem?_set_ne hij]

/-- Below a valid modified position, the modified tree shows the
modified subtree. -/
theorem getAt?_modifyAt_under : ∀ (q : Path) (rest : Path) (t m : HNode) (f : HNode → HNode),
    getAt? t q = some m →
    getAt? (modifyAt t q f) (q ++ rest) = getAt? (f m) rest := by
  intro q
  induction q with
  | nil => intro rest t m f h; cases h; rfl
  | cons i p ih =>
    intro rest t m f h
    show getAt? (mapChildren _ t) (i :: (p ++ rest)) = _
    simp only [getAt?]
    cases t with
    | text l v => simp [getAt?, childrenOf] at h
    | element l tg pr ch =>
      have hc : ∃ c, ch[i]? = some c ∧ getAt? c p = some m := by
        cases hc0 : ch[i]? with
        | none => simp [getAt?, childrenOf, hc0] at h
        | some c => exact ⟨c, rfl, by simpa only [getAt?, childrenOf, hc0] using h⟩
      obtain ⟨c, hc0, hcp⟩ := hc
      simp only [mapChildren, childrenOf, hc0]
      have hset : (ch.set i (modifyAt c p f))[i]? = some (modifyAt c p f) := by
        have : i < ch.length := (List.getElem?_eq_some_iff.mp hc0).1
        simp [List.getElem?_set_self, this]
      rw [hset]
      exact ih rest c m f hcp
    | root l ch =>
      have hc : ∃ c, ch[i]? = some c ∧ getAt? c p = some m := by
        cases hc0 : ch[i]? with
        | none => simp [getAt?, childrenOf, hc0] at h
        | some c => exact ⟨c, rfl, by simpa only [getAt?, childrenOf, hc0] using h⟩
      obtain ⟨c, hc0, hcp⟩ := hc
      simp only [mapChildren, childrenOf, hc0]
      have hset : (ch.set i (modifyAt c p f))[i]? = some (modifyAt c p f) := by
        have : i < ch.length := (List.getElem?_eq_some_iff.mp hc0).1
        simp [List.getElem?_set_self, this]
      rw [hset]
      exact ih rest c m f hcp

/-! ### Labels, identity uniqueness, and the discovery side effect -/

/-- Every tree's label list starts with its own label, followed by the
labels of its children. -/
theorem labels_decomp : ∀ t : HNode, labels t = lbl t :: labelsList (childrenOf t) := by
  intro t
  cases t <;> rfl

/-- A member's labels are among the list's labels. -/
theorem mem_labelsList_of_mem : ∀ (cs : List HNode) (c : HNode) (x : Nat),
    c ∈ cs → x ∈ labels c → x ∈ labelsList cs := by
  intro cs
  induction cs with
  | nil => intro c x hc _; simp at hc
  | cons d ds ih =>
    intro c x hc hx
    simp only [labelsList, List.mem_append]
    rcases List.mem_cons.mp hc with rfl | hc'
    · exact Or.inl hx
    · exact Or.inr (ih c x hc' hx)

/-- A node's label is among its labels. -/
theorem lbl_mem_labels (n : HNode) : lbl n ∈ labels n := by
  rw [labels_decomp]
  exact List.mem_cons_self _ _

/-- A reachable node's label belongs to the tree's labels. -/
theorem mem_labels_of_getAt? : ∀ (r : Path) (t n : HNode),
    getAt? t r = some n → lbl n ∈ labels t := by
  intro r
  induction r with
  | nil =>
    intro t n h
    obtain rfl : t = n := by simpa [getAt?] using h
    exact lbl_mem_labels t
  | cons i p ih =>
    intro t n h
    simp only [getAt?] at h
    cases hc : (childrenOf t)[i]? with
    | none => rw [hc] at h; exact absurd h (by simp)
    | some c =>
      rw [hc] at h
      rw [labels_decomp]
      exact List.mem_cons_of_mem _
        (mem_labelsList_of_mem (childrenOf t) c _ (List.getElem?_mem hc) (ih c n h))

/-- A member of a duplicate-free label list has duplicate-free labels. -/
theorem nodup_labels_of_mem : ∀ (cs : List HNode) (c : HNode),
    (labelsList cs).Nodup → c ∈ cs → (labels c).Nodup := by
  intro cs
  induction cs with
  | nil => intro c _ hc; simp at hc
  | cons d ds ih =>
    intro c hnd hc
    simp only [labelsList] at hnd
    rcases List.mem_cons.mp hc with rfl | hc'
    · exact hnd.of_append_left
    · exact ih c hnd.of_append_right hc'

/-- Distinct children of a duplicate-free label list have disjoint
label sets. -/
theorem labelsList_pair_disjoint : ∀ (cs : List HNode) (i j : Nat) (ci cj : HNode) (x : Nat),
    (labelsList cs).Nodup → i ≠ j → cs[i]? = some ci → cs[j]? = some cj →
    x ∈ labels ci → x ∈ labels cj → False := by
  intro cs
  induction cs with
  | nil => intro i j ci cj x _ _ hi _ _ _; simp at hi
  | cons d ds ih =>
    intro i j ci cj x hnd hij hi hj hxi hxj
    simp only [labelsList] at hnd
    have hdisj := (List.nodup_append.mp hnd).2.2
    cases i with
    | zero =>
      obtain rfl : d = ci := by simpa using hi
      cases j with
      | zero => exact hij rfl
      | succ j' =>
        have hj' : ds[j']? = some cj := by simpa using hj
        exact hdisj hxi (mem_labelsList_of_mem ds cj x (List.getElem?_mem hj') hxj)
    | succ i' =>
      cases j with
      | zero =>
        obtain rfl : d = cj := by simpa using hj
        have hi' : ds[i']? = some ci := by simpa using hi
        exact hdisj hxj (mem_labelsList_of_mem ds ci x (List.getElem?_mem hi') hxi)
      | succ j' =>
        exact ih i' j' ci cj x (List.nodup_append.mp hnd).2.1
          (fun h => hij (by rw [h])) (by simpa using hi) (by simpa using hj) hxi hxj

/-- In a tree with duplicate-free labels, a label determines the
position: two reachable nodes with equal labels sit at equal paths. -/
theorem getAt?_lbl_inj : ∀ (r1 : Path) (t : HNode) (r2 : Path) (n1 n2 : HNode),
    (labels t).Nodup → getAt? t r1 = some n1 → getAt? t r2 = some n2 →
    lbl n1 = lbl n2 → r1 = r2 := by
  intro r1
  induction r1 with
  | nil =>
    intro t r2 n1 n2 hnd h1 h2 hl
    obtain rfl : t = n1 := by simpa [getAt?] using h1
    cases r2 with
    | nil => rfl
    | cons j q =>
      exfalso
      simp only [getAt?] at h2
      cases hc : (childrenOf t)[j]? with
      | none => rw [hc] at h2; simp at h2
      | some c =>
        rw [hc] at h2
        have hmem : lbl n2 ∈ labelsList (childrenOf t) :=
          mem_labelsList_of_mem (childrenOf t) c _ (List.getElem?_mem hc)
            (mem_labels_of_getAt? q c n2 h2)
        rw [labels_decomp, List.nodup_cons] at hnd
        exact hnd.1 (hl ▸ hmem)
  | cons i p ih =>
    intro t r2 n1 n2 hnd h1 h2 hl
    cases r2 with
    | nil =>
      exfalso
      obtain rfl : t = n2 := by simpa [getAt?] using h2
      simp only [getAt?] at h1
      cases hc : (childrenOf t)[i]? with
      | none => rw [hc] at h1; simp at h1
      | some c =>
        rw [hc] at h1
        have hmem : lbl n1 ∈ labelsList (childrenOf t) :=
          mem_labelsList_of_mem (childrenOf t) c _ (List.getElem?_mem hc)
            (mem_labels_of_getAt? p c n1 h1)
        rw [labels_decomp, List.nodup_cons] at hnd
        exact hnd.1 (hl ▸ hmem)
    | cons j q =>
      simp only [getAt?] at h1 h2
      cases hci : (childrenOf t)[i]? with
      | none => rw [hci] at h1; simp at h1
      | some ci =>
        rw [hci] at h1
        cases hcj : (childrenOf t)[j]? with
        | none => rw [hcj] at h2; simp at h2
        | some cj =>
          rw [hcj] at h2
          rw [labels_decomp, List.nodup_cons] at hnd
          by_cases hij : i = j
          · subst hij
            obtain rfl : ci = cj := by rw [hci] at hcj; exact Option.some.inj hcj
            have := ih ci q n1 n2
              (nodup_labels_of_mem (childrenOf t) ci hnd.2 (List.getElem?_mem hci)) h1 h2 hl
            rw [this]
          · exact absurd
              (labelsList_pair_disjoint (childrenOf t) i j ci cj (lbl n1) hnd.2 hij hci hcj
                (mem_labels_of_getAt? p ci n1 h1) (hl ▸ mem_labels_of_getAt? q cj n2 h2))
              not_false

/-- The pass `assignIds` keeps labels. -/
theorem lbl_assignIds (md5hex : String → String) (n : HNode) :
    lbl (assignIds md5hex n) = lbl n := by
  cases n <;> rfl

/-- The children of an id-assigned node are the id-assigned children. -/
theorem assignIdsList_eq_map (md5hex : String → String) :
    ∀ cs, assignIdsList md5hex cs = cs.map (assignIds md5hex) := by
  intro cs
  induction cs with
  | nil => rfl
  | cons c cs ih => simp only [assignIdsList, List.map_cons, ih]

/-- See `assignIdsList_eq_map`. -/
theorem childrenOf_assignIds (md5hex : String → String) (n : HNode) :
    childrenOf (assignIds md5hex n) = (childrenOf n).map (assignIds md5hex) := by
  cases n <;> simp [assignIds, childrenOf, assignIdsList_eq_map]

/-- Reading `getAt?` commutes with the id-assignment pass. -/
theorem getAt?_assignIds (md5hex : String → String) : ∀ (r : Path) (t : HNode),
    getAt? (assignIds md5hex t) r = (getAt? t r).map (assignIds md5hex) := by
  intro r
  induction r with
  | nil => intro t; rfl
  | cons i p ih =>
    intro t
    simp only [getAt?, childrenOf_assignIds, List.getElem?_map]
    cases hc : (childrenOf t)[i]? with
    | none => rfl
    | some c => exact ih c

mutual
/-- The discovery-pass id assignment does not change labels. -/
theorem labels_assignIds (md5hex : String → String) :
    ∀ n, labels (assignIds md5hex n) = labels n
  | .text _ _ => rfl
  | .element l tg pr ch => by
    simp only [assignIds, labels]
    rw [labels_assignIdsList md5hex ch]
  | .root l ch => by
    simp only [assignIds, labels]
    rw [labels_assignIdsList md5hex ch]

/-- See `labels_assignIds`. -/
theorem labels_assignIdsList (md5hex : String → String) :
    ∀ cs, labelsList (assignIdsList md5hex cs) = labelsList cs
  | [] => rfl
  | c :: cs => by
    simp only [assignIdsList, labelsList]
    rw [labels_assignIds md5hex c, labels_assignIdsList md5hex cs]
end

mutual
/-- A subtree containing no qualifying node is untouched by the
discovery-pass id assignment. -/
theorem assignIds_of_hasQual_false (md5hex : String → String) :
    ∀ n, hasQual n = false → assignIds md5hex n = n
  | .text _ _, _ => rfl
  | .element l tg pr ch, h => by
    have h' : qualifies (.element l tg pr ch) = false ∧ hasQualList ch = false := by
      simpa only [hasQual, Bool.or_eq_false_iff] using h
    simp only [assignIds, h'.1, Bool.false_eq_true, if_false]
    rw [assignIdsList_of_hasQualList_false md5hex ch h'.2]
  | .root l ch, h => by
    have h' : hasQualList ch = false := by simpa only [hasQual] using h
    simp only [assignIds]
    rw [assignIdsList_of_hasQualList_false md5hex ch h']

/-- See `assignIds_of_hasQual_false`. -/
theorem assignIdsList_of_hasQualList_false (md5hex : String → String) :
    ∀ cs, hasQualList cs = false → assignIdsList md5hex cs = cs
  | [], _ => rfl
  | c :: cs, h => by
    have h' : hasQual c = false ∧ hasQualList cs = false := by
      simpa only [hasQualList, Bool.or_eq_false_iff] using h
    simp only [assignIdsList]
    rw [assignIds_of_hasQual_false md5hex c h'.1,
      assignIdsList_of_hasQualList_false md5hex cs h'.2]
end

/-- A list with a qualifying member has a qualifying node. -/
theorem hasQualList_of_mem : ∀ (cs : List HNode) (c : HNode),
    c ∈ cs → hasQual c = true → hasQualList cs = true := by
  intro cs
  induction cs with
  | nil => intro c hc _; simp at hc
  | cons d ds ih =>
    intro c hc hq
    simp only [hasQualList, Bool.or_eq_true]
    rcases List.mem_cons.mp hc with rfl | hc'
    · exact Or.inl hq
    · exact Or.inr (ih c hc' hq)

/-- A tree with a reachable qualifying node satisfies `hasQual`. -/
theorem hasQual_of_getAt? : ∀ (s : Path) (n m : HNode),
    getAt? n s = some m → qualifies m = true → hasQual n = true := by
  intro s
  induction s with
  | nil =>
    intro n m h hq
    obtain rfl : n = m := by simpa [getAt?] using h
    cases n with
    | element l tg pr ch => simp only [hasQual, Bool.or_eq_true]; exact Or.inl hq
    | root l ch => simp [qualifies] at hq
    | text l v => simp [qualifies] at hq
  | cons i p ih =>
    intro n m h hq
    simp only [getAt?] at h
    cases hc : (childrenOf n)[i]? with
    | none => rw [hc] at h; simp at h
    | some c =>
      rw [hc] at h
      have hqc := ih c m h hq
      have hql := hasQualList_of_mem (childrenOf n) c (List.getElem?_mem hc) hqc
      cases n with
      | element l tg pr ch =>
        simp only [hasQual, Bool.or_eq_true]
        exact Or.inr (by simpa [childrenOf] using hql)
      | root l ch => simpa [hasQual, childrenOf] using hql
      | text l v => simp [childrenOf] at hc

/-! ### Discovery correctness and target-resolution facts -/

mutual
/-- The discovery pass collects exactly the positions of the qualifying
nodes, each prefixed by the base path. -/
theorem discover_mem : ∀ (n : HNode) (base pp : Path),
    pp ∈ discover n base ↔
      ∃ q m, pp = base ++ q ∧ getAt? n q = some m ∧ qualifies m = true
  | .text l v, base, pp => by
    simp only [discover, List.not_mem_nil, false_iff]
    rintro ⟨q, m, rfl, hg, hq⟩
    cases q with
    | nil =>
      obtain rfl : HNode.text l v = m := by simpa [getAt?] using hg
      simp [qualifies] at hq
    | cons i q' => simp [getAt?, childrenOf] at hg
  | .element l tg pr ch, base, pp => by
    simp only [discover, List.mem_append]
    rw [discoverList_mem ch base 0 pp]
    constructor
    · rintro (h | ⟨j, c, q, m, hj, rfl, hg, hq⟩)
      · by_cases hql : qualifies (.element l tg pr ch) = true
        · rw [if_pos hql] at h
          obtain rfl : pp = base := by simpa using h
          exact ⟨[], .element l tg pr ch, by simp, rfl, hql⟩
        · rw [if_neg hql] at h
          simp at h
      · refine ⟨(0 + j) :: q, m, by simp, ?_, hq⟩
        rw [Nat.zero_add]
        simp only [getAt?, childrenOf]
        rw [hj]
        exact hg
    · rintro ⟨q, m, rfl, hg, hq⟩
      cases q with
      | nil =>
        obtain rfl : HNode.element l tg pr ch = m := by simpa [getAt?] using hg
        left
        rw [if_pos hq]
        simp
      | cons j q' =>
        right
        simp only [getAt?, childrenOf] at hg
        cases hj : ch[j]? with
        | none => rw [hj] at hg; simp at hg
        | some c =>
          rw [hj] at hg
          exact ⟨j, c, q', m, hj, by rw [Nat.zero_add]; simp, hg, hq⟩
  | .root l ch, base, pp => by
    simp only [discover]
    rw [discoverList_mem ch base 0 pp]
    constructor
    · rintro ⟨j, c, q, m, hj, rfl, hg, hq⟩
      refine ⟨(0 + j) :: q, m, by simp, ?_, hq⟩
      rw [Nat.zero_add]
      simp only [getAt?, childrenOf]
      rw [hj]
      exact hg
    · rintro ⟨q, m, rfl, hg, hq⟩
      cases q with
      | nil =>
        obtain rfl : HNode.root l ch = m := by simpa [getAt?] using hg
        simp [qualifies] at hq
      | cons j q' =>
        simp only [getAt?, childrenOf] at hg
        cases hj : ch[j]? with
        | none => rw [hj] at hg; simp at hg
        | some c =>
          rw [hj] at hg
          exact ⟨j, c, q', m, hj, by rw [Nat.zero_add]; simp, hg, hq⟩

/-- See `discover_mem`. -/
theorem discoverList_mem : ∀ (cs : List HNode) (base : Path) (i : Nat) (pp : Path),
    pp ∈ discoverList cs base i ↔
      ∃ j c q m, cs[j]? = some c ∧ pp = base ++ [i + j] ++ q ∧
        getAt? c q = some m ∧ qualifies m = true
  | [], base, i, pp => by simp [discoverList]
  | c :: cs, base, i, pp => by
    simp only [discoverList, List.mem_append]
    rw [discover_mem c (base ++ [i]) pp, discoverList_mem cs base (i + 1) pp]
    constructor
    · rintro (⟨q, m, rfl, hg, hq⟩ | ⟨j, d, q, m, hj, rfl, hg, hq⟩)
      · exact ⟨0, c, q, m, by simp, by simp, hg, hq⟩
      · refine ⟨j + 1, d, q, m, by simpa using hj, ?_, hg, hq⟩
        have heq : i + (j + 1) = i + 1 + j := by omega
        rw [heq]
    · rintro ⟨j, d, q, m, hj, rfl, hg, hq⟩
      cases j with
      | zero =>
        obtain rfl : c = d := by simpa using hj
        exact Or.inl ⟨q, m, by simp, hg, hq⟩
      | succ j' =>
        refine Or.inr ⟨j', d, q, m, by simpa using hj, ?_, hg, hq⟩
        have heq : i + (j' + 1) = i + 1 + j' := by omega
        rw [heq]
end

/-- What a successful target resolution guarantees: the target sits at
the target position of the post-discovery tree, that position is not
the top, and the discovered position extends it. -/
theorem resolveTarget_some (t1 : HNode) (p : Path) (tn : HNode) (tp : Path)
    (h : resolveTarget t1 p = some (tn, tp)) :
    getAt? t1 tp = some tn ∧ tp ≠ [] ∧ ∃ s, p = tp ++ s := by
  cases p with
  | nil => simp [resolveTarget] at h
  | cons a q =>
    cases hpp : getAt? t1 (a :: q).dropLast with
    | none =>
      simp only [resolveTarget, hpp] at h
      rw [Option.map_eq_some'] at h
      obtain ⟨n, hn, heq⟩ := h
      obtain ⟨rfl, rfl⟩ : n = tn ∧ a :: q = tp := by simpa [Prod.ext_iff] using heq
      exact ⟨hn, by simp, [], by simp⟩
    | some parent =>
      simp only [resolveTarget, hpp] at h
      by_cases hpre : isPreElement parent = true
      · rw [if_pos hpre] at h
        cases hdl : (a :: q).dropLast with
        | nil =>
          simp only [hdl] at h
          exact Option.noConfusion h
        | cons b r =>
          simp only [hdl] at h
          obtain ⟨rfl, rfl⟩ : parent = tn ∧ b :: r = tp := by simpa [Prod.ext_iff] using h
          rw [hdl] at hpp
          refine ⟨hpp, by simp, [(a :: q).getLast (by simp)], ?_⟩
          rw [← hdl]
          exact (List.dropLast_append_getLast (by simp)).symm
      · rw [if_neg hpre] at h
        rw [Option.map_eq_some'] at h
        obtain ⟨n, hn, heq⟩ := h
        obtain ⟨rfl, rfl⟩ : n = tn ∧ a :: q = tp := by simpa [Prod.ext_iff] using heq
        exact ⟨hn, by simp, [], by simp⟩

/-- A label present in the flattened labels of a child list comes from
one of its members. -/
theorem mem_labelsList : ∀ (cs : List HNode) (x : Nat),
    x ∈ labelsList cs ↔ ∃ c ∈ cs, x ∈ labels c := by
  intro cs
  induction cs with
  | nil => simp [labelsList]
  | cons d ds ih =>
    intro x
    simp only [labelsList, List.mem_append, ih]
    constructor
    · rintro (h | ⟨c, hc, hx⟩)
      · exact ⟨d, by simp, h⟩
      · exact ⟨c, by simp [hc], hx⟩
    · rintro ⟨c, hc, hx⟩
      rcases List.mem_cons.mp hc with rfl | hc'
      · exact Or.inl hx
      · exact Or.inr ⟨c, hc', hx⟩

/-- The model `parseSvg` does not change the labels of the parsed fragments. -/
theorem labelsList_parseSvg (fragments : String → List HNode) (s : String)
    (cls : Option (List String)) :
    labelsList (parseSvg fragments s cls) = labelsList (fragments s) := by
  cases hf : fragments s with
  | nil => simp [parseSvg, hf]
  | cons first rest =>
    cases cls with
    | none => simp [parseSvg, hf]
    | some cl =>
      cases first with
      | element l tg pr ch =>
        by_cases hcond : tg = "svg" ∧ cl.length > 0
        · simp only [parseSvg, hf, if_pos hcond]
          simp [labelsList, labels]
        · simp only [parseSvg, hf, if_neg hcond]
      | root l ch => simp [parseSvg, hf]
      | text l v => simp [parseSvg, hf]

/-- Every label of the wrapper `applyThemeAST` builds is `0` (the
wrapper is freshly synthesised, and the fragment parser is assumed to
synthesise fresh nodes as well). -/
theorem labels_mermaidWrapper_zero (fragments : String → List HNode)
    (svgByTheme : List (Theme × String)) (id : String) (cls : Option (List String))
    (hfr : ∀ s, ∀ c ∈ fragments s, ∀ x ∈ labels c, x = 0) :
    ∀ x ∈ labels (mermaidWrapper fragments svgByTheme id cls), x = 0 := by
  have hdivs : ∀ (l : List (Theme × String)) (i : Nat) (x : Nat),
      x ∈ labelsList (themeDivs fragments cls id i l) → x = 0 := by
    intro l
    induction l with
    | nil => intro i x hx; simp [themeDivs, labelsList] at hx
    | cons kv rest ih =>
      intro i x hx
      simp only [themeDivs, labelsList, List.mem_append] at hx
      rcases hx with hx | hx
      · simp only [themeDiv, labels, List.mem_cons] at hx
        rcases hx with rfl | hx
        · rfl
        · rw [labelsList_parseSvg] at hx
          obtain ⟨c, hc, hxc⟩ := (mem_labelsList _ x).mp hx
          exact hfr kv.2 c hc x hxc
      · exact ih (i + 1) x hx
  intro x hx
  simp only [mermaidWrapper, labels, List.mem_cons] at hx
  rcases hx with rfl | hx
  · rfl
  · exact hdivs svgByTheme 0 x hx

/-- A one-step path reads the indexed child. -/
theorem getAt?_child (m : HNode) (j : Nat) : getAt? m [j] = (childrenOf m)[j]? := by
  simp only [getAt?]
  cases hc : (childrenOf m)[j]? with
  | none => rfl
  | some c => rfl

/-- One iteration of the rewrite loop either leaves the tree unchanged,
or replaces exactly the subtree at the resolved target position (a
position the post-discovery tree reaches, holding the target's label)
by a freshly synthesised wrapper. -/
theorem transformStep_cases
    (fragments : String → List HNode) (svgOf : String → Theme → String)
    (opts : PluginOptions) (md5hex : String → String) (tree t1 t : HNode) (p : Path)
    (hnd1 : (labels t1).Nodup) (hpos1 : ∀ x ∈ labels t1, 0 < x)
    (hfr : ∀ s, ∀ c ∈ fragments s, ∀ x ∈ labels c, x = 0)
    (hB : ∀ q m, getAt? t q = some m → 0 < lbl m →
        ∃ m2, getAt? t1 q = some m2 ∧ lbl m2 = lbl m) :
    transformStep fragments svgOf opts md5hex tree t1 t p = t ∨
    ∃ tn tp w cj, resolveTarget t1 p = some (tn, tp) ∧
      (∀ x ∈ labels w, x = 0) ∧
      getAt? t tp = some cj ∧
      transformStep fragments svgOf opts md5hex tree t1 t p = modifyAt t tp (fun _ => w) := by
  cases hgp : getAt? tree p with
  | none => left; simp only [transformStep, hgp]
  | some n =>
    cases hrt : resolveTarget t1 p with
    | none => left; simp only [transformStep, hgp, applyThemeAST, hrt]
    | some pair =>
      obtain ⟨tn, tp⟩ := pair
      have hstep : transformStep fragments svgOf opts md5hex tree t1 t p =
          modifyAt t tp.dropLast
            (mapChildren (spliceChildren tn
              (mermaidWrapper fragments
                (jsFromEntries (opts.renderThemes.map
                  (fun th => (th, svgOf (toTextPre n) th))))
                (getDiagramId md5hex (toTextPre n)) opts.svgClassNames))) := by
        simp only [transformStep, hgp, applyThemeAST, hrt]
      cases hsp : getAt? t tp.dropLast with
      | none =>
        left
        rw [hstep]
        exact modifyAt_of_getAt?_none _ t _ hsp
      | some msp =>
        cases hfind : findLbl (lbl tn) (childrenOf msp) with
        | none =>
          left
          rw [hstep]
          apply modifyAt_self
          intro m hm
          obtain rfl : msp = m := by rw [hsp] at hm; exact Option.some.inj hm
          apply mapChildren_congr_self
          simp only [spliceChildren, hfind]
        | some j =>
          right
          obtain ⟨hjlt, cj, hcj, hlcj⟩ := findLbl_spec (childrenOf msp) (lbl tn) j hfind
          have hunder : getAt? t (tp.dropLast ++ [j]) = some cj := by
            rw [getAt?_append, hsp]
            show getAt? msp [j] = some cj
            rw [getAt?_child]
            exact hcj
          obtain ⟨htn, htpne, s, hs⟩ := resolveTarget_some t1 p tn tp hrt
          have hpostn : 0 < lbl tn := hpos1 _ (mem_labels_of_getAt? tp t1 tn htn)
          obtain ⟨m2, hm2, hlm2⟩ := hB (tp.dropLast ++ [j]) cj hunder (by rw [hlcj]; exact hpostn)
          have heqpos : tp.dropLast ++ [j] = tp :=
            getAt?_lbl_inj (tp.dropLast ++ [j]) t1 tp m2 tn hnd1 hm2 htn (by rw [hlm2, hlcj])
          refine ⟨tn, tp,
            mermaidWrapper fragments
              (jsFromEntries (opts.renderThemes.map (fun th => (th, svgOf (toTextPre n) th))))
              (getDiagramId md5hex (toTextPre n)) opts.svgClassNames,
            cj, rfl, labels_mermaidWrapper_zero _ _ _ _ hfr,
            by rw [← heqpos]; exact hunder, ?_⟩
          rw [hstep]
          nth_rewrite 2 [← heqpos]
          rw [modifyAt_snoc]
          apply modifyAt_congr
          intro m hm
          obtain rfl : msp = m := by rw [hsp] at hm; exact Option.some.inj hm
          apply childrenOf_mapChildren_congr
          simp only [spliceChildren, hfind, hcj]

/-- The rewrite loop only changes positions lying at or under resolved
target positions: every position incomparable with all of them still
shows the post-discovery tree. -/
theorem transform_fold_frame
    (fragments : String → List HNode) (svgOf : String → Theme → String)
    (opts : PluginOptions) (md5hex : String → String) (tree : HNode)
    (hnd : (labels tree).Nodup) (hpos : ∀ x ∈ labels tree, 0 < x)
    (hfr : ∀ s, ∀ c ∈ fragments s, ∀ x ∈ labels c, x = 0) :
    ∀ (ps : List Path) (t : HNode),
      (∀ p2 ∈ ps, p2 ∈ discover tree []) →
      (∀ q,
        (∀ p2 ∈ discover tree [], ∀ tn tp,
          resolveTarget (assignIds md5hex tree) p2 = some (tn, tp) →
          isUnder tp q = false ∧ isUnder q tp = false) →
        getAt? t q = getAt? (assignIds md5hex tree) q) →
      (∀ q m, getAt? t q = some m → 0 < lbl m →
        ∃ m2, getAt? (assignIds md5hex tree) q = some m2 ∧ lbl m2 = lbl m) →
      ∀ q,
        (∀ p2 ∈ discover tree [], ∀ tn tp,
          resolveTarget (assignIds md5hex tree) p2 = some (tn, tp) →
          isUnder tp q = false ∧ isUnder q tp = false) →
        getAt? (ps.foldl
            (transformStep fragments svgOf opts md5hex tree (assignIds md5hex tree)) t) q =
          getAt? (assignIds md5hex tree) q := by
  have hnd1 : (labels (assignIds md5hex tree)).Nodup := by
    rw [labels_assignIds]; exact hnd
  have hpos1 : ∀ x ∈ labels (assignIds md5hex tree), 0 < x := by
    rw [labels_assignIds]; exact hpos
  intro ps
  induction ps with
  | nil => intro t _ hA _ q hq; exact hA q hq
  | cons p ps ih =>
    intro t hps hA hB
    have hpD : p ∈ discover tree [] := hps p (List.mem_cons_self _ _)
    rcases transformStep_cases fragments svgOf opts md5hex tree (assignIds md5hex tree) t p
        hnd1 hpos1 hfr hB with hid | ⟨tn, tp, w, cj, hrt, hwz, hcj, heq⟩
    · simp only [List.foldl_cons, hid]
      exact ih t (fun p2 h2 => hps p2 (List.mem_cons_of_mem p h2)) hA hB
    · simp only [List.foldl_cons, heq]
      apply ih _ (fun p2 h2 => hps p2 (List.mem_cons_of_mem p h2))
      · intro q hq
        have hinc := hq p hpD tn tp hrt
        rw [getAt?_modifyAt_unrelated tp q t _ hinc.1 hinc.2]
        exact hA q hq
      · intro q m hm hpm
        by_cases hu : isUnder tp q = true
        · exfalso
          obtain ⟨rest, rfl⟩ := (isUnder_iff tp q).mp hu
          rw [getAt?_modifyAt_under tp rest t cj _ hcj] at hm
          have hz := hwz _ (mem_labels_of_getAt? rest w m hm)
          omega
        · have hfalse : isUnder tp q = false := by
            cases hx : isUnder tp q
            · rfl
            · exact absurd hx hu
          have hmap := lblAt_modifyAt tp q t (fun _ => w) hfalse
          rw [hm] at hmap
          cases hold : getAt? t q with
          | none => rw [hold] at hmap; simp at hmap
          | some mold =>
            rw [hold] at hmap
            have hlm : lbl m = lbl mold := by simpa using hmap
            obtain ⟨m2, hm2, hl2⟩ := hB q mold hold (by rw [← hlm]; exact hpm)
            exact ⟨m2, hm2, by rw [hl2, hlm]⟩

/-- The selection predicate of the traversal, spelled out. -/
theorem qualifies_iff (m : HNode) : qualifies m = true ↔
    ∃ l pr ch cls, m = .element l "code" pr ch ∧
      propGet pr "className" = some (.strs cls) ∧
      cls.contains "language-mermaid" = true := by
  cases m with
  | text l v =>
    simp only [qualifies, Bool.false_eq_true, false_iff]
    rintro ⟨l', pr', ch', cls, heq, _, _⟩
    exact HNode.noConfusion heq
  | root l ch =>
    simp only [qualifies, Bool.false_eq_true, false_iff]
    rintro ⟨l', pr', ch', cls, heq, _, _⟩
    exact HNode.noConfusion heq
  | element l tg pr ch =>
    simp only [qualifies, Bool.and_eq_true, decide_eq_true_eq]
    constructor
    · rintro ⟨rfl, hmatch⟩
      cases hpg : propGet pr "className" with
      | none => rw [hpg] at hmatch; exact absurd hmatch (by simp)
      | some pv =>
        cases pv with
        | str s => rw [hpg] at hmatch; exact absurd hmatch (by simp)
        | strs cls => rw [hpg] at hmatch; exact ⟨l, pr, ch, cls, rfl, hpg, hmatch⟩
    · rintro ⟨l', pr', ch', cls, heq, hpg, hct⟩
      injection heq with h1 h2 h3 h4
      subst h1; subst h2; subst h3; subst h4
      refine ⟨rfl, ?_⟩
      rw [hpg]
      exact hct

/-- Claim C8 (amended): a node is selected for transformation exactly
when it is a `code` element whose class list contains the token
`language-mermaid`; and, in a document whose node identities are
distinct (and whose parsed fragments are fresh), every node that is not
qualifying, contains no qualifying node in its subtree, and does not
lie inside any resolved replacement target's subtree, is left in place
byte-for-byte by the whole transformation.  (A non-qualifying code
block inside a replaced `pre` wrapper is removed with the wrapper; the
counterexample shows the original claim fails there.) -/
theorem selection_iff_and_frame
    (fragments : String → List HNode) (svgOf : String → Theme → String)
    (opts : PluginOptions) (md5hex : String → String) (tree : HNode) :
    (∀ pp, pp ∈ discover tree [] ↔
      ∃ m, getAt? tree pp = some m ∧
        ∃ l pr ch cls, m = .element l "code" pr ch ∧
          propGet pr "className" = some (.strs cls) ∧
          cls.contains "language-mermaid" = true) ∧
    ((labels tree).Nodup → (∀ x ∈ labels tree, 0 < x) →
      (∀ s, ∀ c ∈ fragments s, ∀ x ∈ labels c, x = 0) →
      ∀ r n, getAt? tree r = some n → hasQual n = false →
        (∀ p ∈ discover tree [], ∀ tn tp,
          resolveTarget (assignIds md5hex tree) p = some (tn, tp) →
          isUnder tp r = false) →
        getAt? (rehypeMermaidCLI fragments svgOf opts md5hex tree) r = some n) := by
  constructor
  · intro pp
    rw [discover_mem tree [] pp]
    constructor
    · rintro ⟨q, m, hq, hg, hqual⟩
      obtain rfl : pp = q := by simpa using hq
      exact ⟨m, hg, (qualifies_iff m).mp hqual⟩
    · rintro ⟨m, hg, hstruct⟩
      exact ⟨pp, m, by simp, hg, (qualifies_iff m).mpr hstruct⟩
  · intro hnd hpos hfr r n hg hnq hprot
    have hprot2 : ∀ p ∈ discover tree [], ∀ tn tp,
        resolveTarget (assignIds md5hex tree) p = some (tn, tp) →
        isUnder tp r = false ∧ isUnder r tp = false := by
      intro p hp tn tp hrt
      refine ⟨hprot p hp tn tp hrt, ?_⟩
      cases hx : isUnder r tp with
      | false => rfl
      | true =>
        exfalso
        obtain ⟨s1, rfl⟩ := (isUnder_iff r tp).mp hx
        obtain ⟨htn, htpne, s2, hs2⟩ := resolveTarget_some _ p tn _ hrt
        obtain ⟨q0, m, hq0, hgm, hqm⟩ := (discover_mem tree [] p).mp hp
        obtain rfl : p = q0 := by simpa using hq0
        rw [hs2, List.append_assoc, getAt?_append, hg] at hgm
        have hhq : hasQual n = true := hasQual_of_getAt? (s1 ++ s2) n m hgm hqm
        rw [hnq] at hhq
        exact Bool.noConfusion hhq
    have hfold := transform_fold_frame fragments svgOf opts md5hex tree hnd hpos hfr
      (discover tree []) (assignIds md5hex tree) (fun p2 h2 => h2)
      (fun q _ => rfl) (fun q m hm _ => ⟨m, hm, rfl⟩) r hprot2
    have hrw : getAt? (rehypeMermaidCLI fragments svgOf opts md5hex tree) r =
        getAt? (assignIds md5hex tree) r := hfold
    rw [hrw, getAt?_assignIds, hg]
    show some (assignIds md5hex n) = some n
    rw [assignIds_of_hasQual_false md5hex n hnq]

/-- Witness for C8 (amended): the unrelated code block next to the
replaced `pre` wrapper survives the whole transformation in place. -/
theorem selection_iff_and_frame_w :
    getAt? (rehypeMermaidCLI sFragments sSvgOf ⟨[Theme.default], none⟩ sMd5 sTreeFrame) [1] =
      some sCodeJS :=
  (selection_iff_and_frame sFragments sSvgOf ⟨[Theme.default], none⟩ sMd5 sTreeFrame).2
    (by decide) (by decide)
    (by
      intro s c hc x hx
      rw [show sFragments s = [.element 0 "svg" [] []] from rfl, List.mem_singleton] at hc
      subst hc
      simpa [labels, labelsList] using hx)
    [1] sCodeJS (by rfl) (by rfl)
    (by
      intro p hp tn tp hrt
      rw [show discover sTreeFrame [] = [[0, 0]] from rfl, List.mem_singleton] at hp
      subst hp
      have h2 : (resolveTarget (assignIds sMd5 sTreeFrame) [0, 0]).map Prod.snd =
          some [0] := rfl
      rw [hrt] at h2
      obtain rfl : tp = [0] := by simpa using h2
      rfl)

/-- Counterexample for C8 as frozen: a code block tagged with a
different language, sitting inside the `pre` wrapper of a qualifying
diagram, is removed by the transformation (its identity label no longer
occurs in the output), so it is not left byte-for-byte unchanged. -/
theorem selection_frame_cex :
    qualifies sCodeJS = false ∧
    getAt? sTreeMixedPre [0, 1] = some sCodeJS ∧
    (labels (rehypeMermaidCLI sFragments sSvgOf ⟨[Theme.default], none⟩ sMd5
      sTreeMixedPre)).contains 4 = false ∧
    lbl sCodeJS = 4 := by
  exact ⟨rfl, rfl, rfl, rfl⟩

/-- Claim C10 (amended): with an empty configured theme list, the
per-diagram theme mapping is empty and the rewrite is still performed:
it splices a `mermaid-wrapper` div carrying the diagram's identity and
zero theme-variant children over the located target, rather than
leaving the block or failing.  (A block whose target was already
displaced — e.g. a `pre` shared with an earlier diagram — is skipped,
as the counterexample shows.) -/
theorem emptyThemes_wrapper (fragments : String → List HNode) (svgOf : String → Theme → String)
    (cls : Option (List String)) (md5hex : String → String) (tree t1 t : HNode) (p : Path)
    (n : HNode) (hn : getAt? tree p = some n)
    (target : HNode) (tp : Path) (hrt : resolveTarget t1 p = some (target, tp)) :
    jsFromEntries (([] : List Theme).map (fun th => (th, svgOf (toTextPre n) th))) = [] ∧
    mermaidWrapper fragments [] (getDiagramId md5hex (toTextPre n)) cls =
      .element 0 "div" [("className", .strs ["mermaid-wrapper"]),
        ("id", .str (getDiagramId md5hex (toTextPre n)))] [] ∧
    transformStep fragments svgOf ⟨[], cls⟩ md5hex tree t1 t p =
      modifyAt t tp.dropLast
        (mapChildren (spliceChildren target
          (.element 0 "div" [("className", .strs ["mermaid-wrapper"]),
            ("id", .str (getDiagramId md5hex (toTextPre n)))] []))) := by
  refine ⟨rfl, rfl, ?_⟩
  simp only [transformStep, hn, applyThemeAST, hrt]
  rfl

/-- Witness for C10 (amended) on a concrete one-diagram tree. -/
theorem emptyThemes_wrapper_w :
    transformStep sFragments sSvgOf ⟨[], none⟩ sMd5 sTreeSimple
        (assignIds sMd5 sTreeSimple) (assignIds sMd5 sTreeSimple) [0, 0] =
      modifyAt (assignIds sMd5 sTreeSimple) []
        (mapChildren (spliceChildren
          (.element 2 "pre" []
            [.element 3 "code" [("className", .strs ["language-mermaid"]),
              ("id", .str "mermaid-aaaaaaaa")] [.text 5 "a"]])
          (.element 0 "div" [("className", .strs ["mermaid-wrapper"]),
            ("id", .str (getDiagramId sMd5 (toTextPre (sCodeM 3 5 "a"))))] []))) :=
  (emptyThemes_wrapper sFragments sSvgOf none sMd5 sTreeSimple
    (assignIds sMd5 sTreeSimple) (assignIds sMd5 sTreeSimple) [0, 0]
    (sCodeM 3 5 "a") (by rfl)
    (.element 2 "pre" []
      [.element 3 "code" [("className", .strs ["language-mermaid"]),
        ("id", .str "mermaid-aaaaaaaa")] [.text 5 "a"]])
    [0] (by rfl)).2.2

/-- Counterexample for C10 as frozen: with an empty theme list and two
qualifying blocks sharing one `pre` wrapper, only the first block's
rewrite happens; the second qualifying block ends up with no wrapper
carrying its identity (nor does it stay in the tree), so not every
qualifying block is replaced. -/
theorem emptyThemes_cex :
    rehypeMermaidCLI sFragments sSvgOf ⟨[], none⟩ sMd5 sTreeSharedPre =
      .root 1 [.element 0 "div" [("className", .strs ["mermaid-wrapper"]),
        ("id", .str "mermaid-aaaaaaaa")] []] ∧
    getAt? sTreeSharedPre [0, 1] = some (sCodeM 4 6 "b") ∧
    qualifies (sCodeM 4 6 "b") = true ∧
    getDiagramId sMd5 "b" = "mermaid-bbbbbbbb" ∧
    hasIdProp "mermaid-bbbbbbbb"
      (rehypeMermaidCLI sFragments sSvgOf ⟨[], none⟩ sMd5 sTreeSharedPre) = false := by
  exact ⟨rfl, rfl, rfl, rfl, rfl⟩

end RehypeMermaid
